import Mathlib

/-!
Verification of the InvNet graph engine (`inv_net/graph.py`, `inv_net/node.py`,
`inv_net/edge.py`, `utils/graph_algorithms.py`).

The Python code is shallowly embedded as follows:

* node/edge identifiers are `String`, as in the source (`node_id : str`);
* Python `float` quantities (lead times, decision ratios) are modelled by `ℚ`;
  the sentinel `-float('inf')` used by the cumulative-lead-time computation is
  modelled by `⊥ : WithBot ℚ` (IEEE `-inf` is absorbing for the additions and
  comparisons the code performs, exactly as `⊥` is), and `np.inf` used by the
  transit-time search is modelled by `⊤ : WithTop ℚ`;
* Python `set`s are modelled by duplicate-free lists (or `Finset`s when only
  membership is observed); Python iterates sets in an unspecified order, so the
  fixed orders chosen here are one legitimate execution;
* Python `dict`s are modelled by association lists with `alookup`/`aupdate`;
* operations that can raise (`KeyError`, `ValueError`) return `Option`.
-/

/-- Association-list lookup, the model of a Python `dict` read
(`none` models a `KeyError`). -/
def alookup {β : Type} (k : String) : List (String × β) → Option β
  | [] => none
  | (a, b) :: l => if a = k then some b else alookup k l

/-- Association-list lookup keyed by a pair of identifiers (for edge pools). -/
def alookup2 {β : Type} (k : String × String) : List ((String × String) × β) → Option β
  | [] => none
  | (a, b) :: l => if a = k then some b else alookup2 k l

/-- Association-list update, the model of a Python `dict` assignment: replaces
the binding if the key is present, appends it otherwise. -/
def aupdate {β : Type} (k : String) (v : β) : List (String × β) → List (String × β)
  | [] => [(k, v)]
  | (a, b) :: l => if a = k then (k, v) :: l else (a, b) :: aupdate k v l

/-- Removal of a binding, the model of Python `dict.pop`. -/
def aremove {β : Type} (k : String) : List (String × β) → List (String × β)
  | [] => []
  | (a, b) :: l => if a = k then l else (a, b) :: aremove k l

/-- The set of edge-incident node ids,
`nodes = set([node for tu in edges for node in tu])` as it appears in
`find_succs_of_node`, `find_preds_of_node` and `find_topo_sort`. -/
def nodesOf (edges : List (String × String)) : List String :=
  (edges.map Prod.fst ++ edges.map Prod.snd).dedup

/-- `find_succs_of_node` (graph_algorithms.py): the successor set of a node,
as a duplicate-free list.  A node that is not incident to any edge is outside
the Python dict's key set; the Python code never reads such a key, and the
embedding returns `[]` there. -/
def find_succs_of_node (edges : List (String × String)) (v : String) : List String :=
  ((edges.filterMap fun e => if e.1 = v then some e.2 else none).dedup)

/-- `find_preds_of_node` (graph_algorithms.py): the predecessor set of a node,
as a duplicate-free list (same key-set convention as `find_succs_of_node`). -/
def find_preds_of_node (edges : List (String × String)) (v : String) : List String :=
  ((edges.filterMap fun e => if e.2 = v then some e.1 else none).dedup)

/-- Root ids: `set([i for i, _ in edges]) - set([j for _, j in edges])`
(`DiGraph.find_roots`). -/
def rootsOf (edges : List (String × String)) : List String :=
  ((edges.map Prod.fst).filter fun i => decide (¬ i ∈ edges.map Prod.snd)).dedup

/-- Sink ids: `set([j for _, j in edges]) - set([i for i, _ in edges])`
(`DiGraph.find_sinks`). -/
def sinksOf (edges : List (String × String)) : List String :=
  ((edges.map Prod.snd).filter fun j => decide (¬ j ∈ edges.map Prod.fst)).dedup

/-- The inner depth-first search of `find_topo_sort` (graph_algorithms.py).
The state is the pair (`visited` set, `topo_sort` list); the worklist holds the
nodes still to be visited at the current level (`for succ in succs_of_node[node]`
turns into the worklist `succs v`, and the top-level `for node in nodes` into the
worklist `nodes`).  The Python function recurses on the successor map; the
hypothesis `hs` records that nodes outside `univ` have no successors, which is
what bounds the recursion. -/
def dfsTopo (succs : String → List String) (univ : Finset String)
    (hs : ∀ v, v ∉ univ → succs v = []) :
    List String → (st : Finset String × List String) →
    {st' : Finset String × List String // st.1 ⊆ st'.1}
  | [], st => ⟨st, subset_rfl⟩
  | v :: vs, st =>
    if hv : v ∈ st.1 then
      let r := dfsTopo succs univ hs vs st
      ⟨r.1, r.2⟩
    else
      let r1 := dfsTopo succs univ hs (succs v) (insert v st.1, st.2)
      let r2 := dfsTopo succs univ hs vs (r1.1.1, r1.1.2 ++ [v])
      ⟨r2.1, by
        have h1 : st.1 ⊆ r1.1.1 := (Finset.subset_insert v st.1).trans r1.2
        exact h1.trans r2.2⟩
termination_by ws st => ((univ \ st.1).card, ws.length)
decreasing_by
  · apply Prod.Lex.right
    simp only [List.length_cons]
    omega
  · by_cases hu : v ∈ univ
    · apply Prod.Lex.left
      apply Finset.card_lt_card
      constructor
      · intro x hx
        simp only [Finset.mem_sdiff] at hx ⊢
        exact ⟨hx.1, fun hx' => hx.2 (Finset.mem_insert_of_mem hx')⟩
      · intro hsub
        have hv' : v ∈ univ \ st.1 := Finset.mem_sdiff.mpr ⟨hu, hv⟩
        have := hsub hv'
        simp at this
    · have hse : succs v = [] := hs v hu
      have hins : univ \ insert v st.1 = univ \ st.1 := by
        ext x
        simp only [Finset.mem_sdiff, Finset.mem_insert]
        constructor
        · rintro ⟨h1, h2⟩; exact ⟨h1, fun h => h2 (Or.inr h)⟩
        · rintro ⟨h1, h2⟩
          refine ⟨h1, ?_⟩
          rintro (rfl | h)
          · exact hu h1
          · exact h2 h
      rw [hins, hse]
      apply Prod.Lex.right
      simp only [List.length_nil, List.length_cons]
      omega
  · rcases lt_or_eq_of_le (Finset.card_le_card (Finset.sdiff_subset_sdiff (le_refl univ)
      ((Finset.subset_insert v st.1).trans r1.2))) with h | h
    · exact Prod.Lex.left _ _ h
    · rw [h]
      apply Prod.Lex.right
      simp only [List.length_cons]
      omega

/-- Nodes outside the edge-incident set have no successors (the Python dict
`succs_of_node` simply has no such key, and no such key is ever read). -/
def succsNilOutside (edges : List (String × String)) :
    ∀ v, v ∉ (nodesOf edges).toFinset → find_succs_of_node edges v = [] := by
  intro v hv
  rw [find_succs_of_node, List.dedup_eq_nil]
  rw [List.filterMap_eq_nil_iff]
  intro e he
  rw [if_neg]
  intro h
  apply hv
  rw [List.mem_toFinset, nodesOf, List.mem_dedup, List.mem_append]
  exact Or.inl (List.mem_map.mpr ⟨e, he, h⟩)

/-- Nodes outside the edge-incident set have no predecessors. -/
def predsNilOutside (edges : List (String × String)) :
    ∀ v, v ∉ (nodesOf edges).toFinset → find_preds_of_node edges v = [] := by
  intro v hv
  rw [find_preds_of_node, List.dedup_eq_nil]
  rw [List.filterMap_eq_nil_iff]
  intro e he
  rw [if_neg]
  intro h
  apply hv
  rw [List.mem_toFinset, nodesOf, List.mem_dedup, List.mem_append]
  exact Or.inr (List.mem_map.mpr ⟨e, he, h⟩)

/-- `find_topo_sort` (graph_algorithms.py): depth-first postorder over the
successor map, started from every edge-incident node, then reversed. -/
def find_topo_sort (edges : List (String × String)) : List String :=
  (dfsTopo (find_succs_of_node edges) (nodesOf edges).toFinset
    (succsNilOutside edges) (nodesOf edges) (∅, [])).1.2.reverse

/-- `u` occurs strictly before `v` in the list `l`. -/
def comesBefore (l : List String) (u v : String) : Prop :=
  ∃ l1 l2 l3, l = l1 ++ u :: l2 ++ v :: l3

/-- One directed step along the successor map. -/
def succStep (succs : String → List String) (a b : String) : Prop := b ∈ succs a

/-- The successor map has no directed cycle (no node reaches itself in one or
more steps). -/
def AcyclicSuccs (succs : String → List String) : Prop :=
  ∀ x, ¬ Relation.TransGen (succStep succs) x x

/-- The shared inner depth-first search of `find_descendants` and
`find_ancestors` (graph_algorithms.py).  Both walk an adjacency map (`succs`
resp. `preds`), collect the visited set, and append one tuple to an edge list
for every (visited node, adjacent node) pair before recursing into the
adjacent node; they differ only in the adjacency map and in the orientation of
the recorded tuple, abstracted here by `mk`.  A worklist element `(n, q)`
stands for the loop body `sub_edges.append(mk n q); _dfs(q)` executed while
node `n` is being expanded.  The visited set is kept as a duplicate-free list
(Python iterates it nowhere, only membership and the final set are observed). -/
def dfsClos (adj : String → List String) (univ : Finset String)
    (hs : ∀ v, v ∉ univ → adj v = [])
    (mk : String → String → (String × String)) :
    List (String × String) → (st : List String × List (String × String)) →
    {st' : List String × List (String × String) // ∀ x ∈ st.1, x ∈ st'.1}
  | [], st => ⟨st, fun _ h => h⟩
  | (n, q) :: ts, st =>
    if hq : q ∈ st.1 then
      let r := dfsClos adj univ hs mk ts (st.1, st.2 ++ [mk n q])
      ⟨r.1, r.2⟩
    else
      let r1 := dfsClos adj univ hs mk ((adj q).map fun w => (q, w))
        (q :: st.1, st.2 ++ [mk n q])
      let r2 := dfsClos adj univ hs mk ts r1.1
      ⟨r2.1, fun x hx => r2.2 x (r1.2 x (List.mem_cons_of_mem q hx))⟩
termination_by ts st => ((univ \ st.1.toFinset).card, ts.length)
decreasing_by
  · apply Prod.Lex.right
    simp only [List.length_cons]
    omega
  · by_cases hu : q ∈ univ
    · apply Prod.Lex.left
      apply Finset.card_lt_card
      constructor
      · intro x hx
        simp only [Finset.mem_sdiff, List.toFinset_cons, Finset.mem_insert,
          List.mem_toFinset] at hx ⊢
        exact ⟨hx.1, fun hx' => hx.2 (Or.inr hx')⟩
      · intro hsub
        have hq' : q ∈ univ \ st.1.toFinset := by
          simp only [Finset.mem_sdiff, List.mem_toFinset]
          exact ⟨hu, hq⟩
        have := hsub hq'
        simp at this
    · have hse : adj q = [] := hs q hu
      have hins : univ \ (q :: st.1).toFinset = univ \ st.1.toFinset := by
        ext x
        simp only [Finset.mem_sdiff, List.toFinset_cons, Finset.mem_insert,
          List.mem_toFinset]
        constructor
        · rintro ⟨h1, h2⟩; exact ⟨h1, fun h => h2 (Or.inr h)⟩
        · rintro ⟨h1, h2⟩
          refine ⟨h1, ?_⟩
          rintro (rfl | h)
          · exact hu h1
          · exact h2 h
      rw [hins, hse]
      apply Prod.Lex.right
      simp only [List.map_nil, List.length_nil, List.length_cons]
      omega
  · have hsub : univ \ r1.1.1.toFinset ⊆ univ \ st.1.toFinset := by
      apply Finset.sdiff_subset_sdiff (le_refl univ)
      intro x hx
      rw [List.mem_toFinset] at hx ⊢
      exact r1.2 x (List.mem_cons_of_mem q hx)
    rcases lt_or_eq_of_le (Finset.card_le_card hsub) with h | h
    · exact Prod.Lex.left _ _ h
    · rw [h]
      apply Prod.Lex.right
      simp only [List.length_cons]
      omega

/-- `find_ancestors` (graph_algorithms.py), specialised to the predecessor map
of an edge list: the backward-reachability closure of `j` together with the
list of edges `(pred, node)` recorded for every closure member `node` and every
predecessor `pred` of it.  The top-level `_dfs(j)` marks `j` visited and then
runs the loop body for every predecessor of `j`. -/
def find_ancestors_of (edges : List (String × String)) (j : String) :
    List String × List (String × String) :=
  (dfsClos (find_preds_of_node edges) (nodesOf edges).toFinset
    (predsNilOutside edges) (fun n p => (p, n))
    ((find_preds_of_node edges j).map fun w => (j, w)) ([j], [])).1

/-- `find_descendants` (graph_algorithms.py), specialised to the successor map
of an edge list: the forward-reachability closure of `i` together with the list
of edges `(node, succ)` recorded along the walk. -/
def find_descendants_of (edges : List (String × String)) (i : String) :
    List String × List (String × String) :=
  (dfsClos (find_succs_of_node edges) (nodesOf edges).toFinset
    (succsNilOutside edges) (fun n s => (n, s))
    ((find_succs_of_node edges i).map fun w => (i, w)) ([i], [])).1

/-- `DiGraph.two_nodes_connectivity` (graph.py): `v ∈ descendants(u)`. -/
def two_nodes_connectivity (edges : List (String × String)) (u v : String) : Prop :=
  v ∈ (find_descendants_of edges u).1

instance (edges : List (String × String)) (u v : String) :
    Decidable (two_nodes_connectivity edges u v) := by
  unfold two_nodes_connectivity
  infer_instance

/-- `find_all_paths` (graph_algorithms.py): all simple paths from `u` to `v`
over the successor map, the path built so far being excluded from further
steps.  The Python recursion is bounded by the strictly growing `path`
argument; the embedding makes this explicit with a fuel parameter, and every
caller supplies fuel exceeding the number of nodes, which the path length can
never reach. -/
def find_all_paths (succs : String → List String) :
    Nat → String → String → List String → List (List String)
  | 0, _, _, _ => []
  | fuel + 1, u, v, path =>
    let path' := path ++ [u]
    if u = v then [path']
    else ((succs u).filter fun w => decide (¬ w ∈ path')).flatMap
      fun w => find_all_paths succs fuel w v path'

/-- `cal_net_qty` (graph_algorithms.py): the BOM net-quantity table.  For each
sink, the ancestor closure is extracted, seeded with `net_qty[sink] = 1` and 0
elsewhere, and filled along the reversed topological order of the closure's
edge list; the per-sink tables are merged keyed by `(ancestor, sink)`.
`n_net_qty[succ]` is a read of a key that is always present (the successors of
an ancestor inside the closure are closure members); the embedding defaults
that read to 0.  `sinkFilled` is the per-sink body of the loop (the local
`n_net_qty` in its final state); `cal_net_qty` merges the per-sink tables. -/
def sinkFilled (edges : List (String × String))
    (edge_qty : String × String → ℚ) (n_id : String) : List (String × ℚ) :=
  let anc := find_ancestors_of edges n_id
  let sub_succs := find_succs_of_node anc.2
  let init := aupdate n_id 1 (anc.1.foldl (fun m an => aupdate an 0 m) [])
  let sub_ts := (find_topo_sort anc.2).reverse
  (sub_ts.drop 1).foldl
    (fun m i =>
      aupdate i (((sub_succs i).map fun s => edge_qty (i, s) * (alookup s m).getD 0).sum) m)
    init

def cal_net_qty (edges : List (String × String))
    (edge_qty : String × String → ℚ) : List ((String × String) × ℚ) :=
  (sinksOf edges).foldl
    (fun net n_id =>
      (sinkFilled edges edge_qty n_id).foldl
        (fun acc p => acc ++ [((p.1, n_id), p.2)]) net)
    []

/-- `TransitEdge` (edge.py): a site-to-site edge; only the fields read by the
modelled operations are kept, with the `transit_lt is None` default already
resolved to 0 by the constructor. -/
structure TransitEdgeState where
  u : String
  v : String
  u_company : String
  v_company : String
  transit_lt : ℚ

/-- `SiteGraph` (graph.py): node pool keys and edge pool.  Site node payloads
carry no data read by the transit-time search. -/
structure SiteGraphState where
  site_ids : List String
  edges_pool : List ((String × String) × TransitEdgeState)

/-- The transit lead time stored on an edge of the pool; the default 0 is
never reached by the modelled operations (they only read keys present in the
pool). -/
def transitLtOf (g : SiteGraphState) (k : String × String) : ℚ :=
  ((alookup2 k g.edges_pool).map TransitEdgeState.transit_lt).getD 0

/-- The inner loop of `SiteGraph.sites_transit_lt`:
`for i in range(len(path) - 1): path_cum_edge_lt += edges_pool[(path[i], path[i+1])].transit_lt`. -/
def path_cum_edge_lt (g : SiteGraphState) : List String → ℚ
  | a :: b :: rest => transitLtOf g (a, b) + path_cum_edge_lt g (b :: rest)
  | _ => 0

/-- The `elif` branch of `SiteGraph.sites_transit_lt`: enumerate all simple
paths from `u` to `v` and fold `min` over their cumulative transit lead times,
starting from `np.inf`. -/
def site_min_path_lt (g : SiteGraphState) (u v : String) : WithTop ℚ :=
  let edges := g.edges_pool.map Prod.fst
  (find_all_paths (find_succs_of_node edges) ((nodesOf edges).length + 1) u v []).foldl
    (fun m p => min m ((path_cum_edge_lt g p : ℚ) : WithTop ℚ)) ⊤

/-- `SiteGraph.sites_transit_lt` (graph.py): if a direct edge exists its
transit lead time is returned immediately; otherwise, if `v` is reachable from
`u`, the minimum cumulative transit lead time over all simple paths; otherwise
`np.inf`. -/
def sites_transit_lt (g : SiteGraphState) (u v : String) : WithTop ℚ :=
  let edges := g.edges_pool.map Prod.fst
  if (u, v) ∈ edges then ((transitLtOf g (u, v) : ℚ) : WithTop ℚ)
  else if two_nodes_connectivity edges u v then site_min_path_lt g u v
  else ⊤

/-- `MaterialEdge` (edge.py): the fields read by the modelled operations, with
the constructor defaults (`original_qty = 1`, `decision_ratio = 1`,
`transit_lt = 0`) already resolved to numbers. -/
structure MaterialEdgeState where
  u : String
  v : String
  u_site : String
  v_site : String
  original_qty : ℚ
  decision_ratio : ℚ
  transit_lt : ℚ

/-- `MaterialEdge.qty` (edge.py): effective quantity. -/
def MaterialEdgeState.qty (e : MaterialEdgeState) : ℚ :=
  e.original_qty * e.decision_ratio

/-- `MaterialEdge.update_decision_ratio` (edge.py). -/
def MaterialEdgeState.update_decision_ratio (e : MaterialEdgeState) (r : ℚ) :
    MaterialEdgeState :=
  { e with decision_ratio := r }

/-- The per-edge attribute bag a material node keeps for each incoming edge
(`{'transit_lt': ..., 'decision_ratio': ...}`, set by
`MaterialGraph.update_incoming_edges_info`). -/
structure IncomingInfo where
  transit_lt : ℚ
  decision_ratio : ℚ

/-- `MaterialNode`/`AlterMaterialNode` state (node.py).  The numeric fields
that the Python constructors default to `None` and that the modelled
computations then add or compare (`lt`, `process_lt`, `replenish_cycle`,
`avg_fill_time`) are modelled as `ℚ`; running `update_cum_lt_info` on a node
whose `lt` is still `None` would raise `TypeError` in Python and such states
are outside this model.  Fields that stay optional (`inv_type`, `sale_price`,
`sale_sla`, ...) keep `Option` types.  `cum_lt`/`longest_pred` start as
`None`. -/
structure MaterialNodeState where
  node_id : String
  company_id : String
  site_id : String
  material_id : String
  desc : Option String
  make_or_buy : Option String
  inv_type : Option String
  replenish_cycle : ℚ
  process_lt : ℚ
  lt : ℚ
  holding_cost : Option ℚ
  material_cost : Option ℚ
  sale_price : Option ℚ
  sale_sla : Option ℚ
  avg_fill_time : ℚ
  node_type : String
  alter_time_mode : String
  pred_nodes : List String
  succ_nodes : List String
  incoming_edges_info : List ((String × String) × IncomingInfo)
  cum_lt : Option (WithBot ℚ)
  longest_pred : Option (List String)

/-- `AlterMaterialNode.__init__` (node.py), as the net state it constructs.
The Python constructor forwards its arguments positionally to
`MaterialNode.__init__`, whose parameter list also contains `inv_type`,
`replenish_cycle`, `process_lt` and `lt` between `make_or_buy` and
`holding_cost`; the call therefore binds `holding_cost → inv_type`,
`material_cost → replenish_cycle`, `sale_price → process_lt`,
`sale_sla → lt` and `avg_fill_time → holding_cost`, leaving the base
constructor's own `material_cost`, `sale_price`, `sale_sla` and
`avg_fill_time` parameters at their `None` defaults (so `_sale_price = None`,
`_sale_sla = None`, `_avg_fill_time = 0`).  The subclass body then overwrites
`_holding_cost`, `_material_cost`, `_inv_type = 'NO'`,
`_replenish_cycle = 0`, `_process_lt = 0`, `_lt = 0` and the node type, so
every mis-bound value is dead; the state below is the net result. -/
def alterMaterialNodeInit (node_id company_id site_id material_id : String)
    (desc make_or_buy : Option String)
    (holding_cost material_cost sale_price sale_sla avg_fill_time : Option ℚ)
    (alter_time_mode : String) : MaterialNodeState where
  node_id := node_id
  company_id := company_id
  site_id := site_id
  material_id := material_id
  desc := desc
  make_or_buy := make_or_buy
  inv_type := some "NO"
  replenish_cycle := 0
  process_lt := 0
  lt := 0
  holding_cost := holding_cost
  material_cost := material_cost
  sale_price := none
  sale_sla := none
  avg_fill_time := 0
  node_type := "ALTER_MATERIAL"
  alter_time_mode := alter_time_mode
  pred_nodes := []
  succ_nodes := []
  incoming_edges_info := []
  cum_lt := none
  longest_pred := none

/-- Assignment `incoming_edges_info[e_id]['decision_ratio'] = ratio` on a
node's incoming-edge map.  A missing key would raise `KeyError` in Python; the
callers below only use keys present in the map, where the embedding agrees. -/
def setIncomingRatio (k : String × String) (r : ℚ)
    (m : List ((String × String) × IncomingInfo)) :
    List ((String × String) × IncomingInfo) :=
  m.map fun p => if p.1 = k then (p.1, { p.2 with decision_ratio := r }) else p

/-- `AlterMaterialNode.update_decision_ratio` (node.py): with no explicit
ratios, every incoming edge `(pred, node_id)` is assigned `1 / in_degree`
(no rounding); with explicit ratios, those are written as given. -/
def update_decision_ratio (n : MaterialNodeState)
    (decision_ratio : Option (List ((String × String) × ℚ))) : MaterialNodeState :=
  let dr := match decision_ratio with
    | none => n.pred_nodes.map fun p =>
        ((p, n.node_id), (1 : ℚ) / (n.pred_nodes.length : ℚ))
    | some d => d
  { n with incoming_edges_info :=
      dr.foldl (fun m kr => setIncomingRatio kr.1 kr.2 m) n.incoming_edges_info }

/-- `MaterialGraph` (graph.py): node pool and edge pool. -/
structure MaterialGraphState where
  nodes_pool : List (String × MaterialNodeState)
  edges_pool : List ((String × String) × MaterialEdgeState)

/-- `MaterialGraph.edge_qty` (graph.py): effective quantity per edge key (the
default 0 is never read: only keys present in the pool are looked up). -/
def MaterialGraphState.edge_qty (g : MaterialGraphState) :
    String × String → ℚ :=
  fun k => ((alookup2 k g.edges_pool).map MaterialEdgeState.qty).getD 0

/-- `MaterialGraph.update_net_qty` (graph.py). -/
def update_net_qty (g : MaterialGraphState) : List ((String × String) × ℚ) :=
  cal_net_qty (g.edges_pool.map Prod.fst) g.edge_qty

/-- `MaterialGraph.update_default_alter_decision_ratio` (graph.py): every
alternate node recomputes its default incoming decision ratios, which are then
pushed onto the graph's edge pool.  The state of each node after its own
`update_decision_ratio()` call is what the push reads. -/
def update_default_alter_decision_ratio (g : MaterialGraphState) :
    MaterialGraphState :=
  g.nodes_pool.foldl
    (fun g' jn =>
      if jn.2.node_type = "ALTER_MATERIAL" then
        match alookup jn.1 g'.nodes_pool with
        | none => g'
        | some n =>
          let n' := update_decision_ratio n none
          let pool' := aupdate jn.1 n' g'.nodes_pool
          let edges' := n'.incoming_edges_info.foldl
            (fun es ki =>
              match alookup2 ki.1 es with
              | none => es
              | some e => es.map fun p =>
                  if p.1 = ki.1 then (p.1, e.update_decision_ratio ki.2.decision_ratio) else p)
            g'.edges_pool
          { nodes_pool := pool', edges_pool := edges' }
      else g')
    g

/-- The active incoming alternatives of a node, as read by the alternate
branch of `MaterialGraph.update_cum_lt_info`: the node's refreshed
`incoming_edges_info` holds one entry `(pred, n_id)` per predecessor with the
decision ratio copied from the edge pool, and the branch keeps those with
ratio `> 0`. -/
def incomingActiveInfo (g : MaterialGraphState) (edges : List (String × String))
    (n_id : String) : List (String × ℚ) :=
  (find_preds_of_node edges n_id).filterMap fun p =>
    match alookup2 (p, n_id) g.edges_pool with
    | some e => if 0 < e.decision_ratio then some (p, e.decision_ratio) else none
    | none => none

/-- One iteration of the `for n_id in self.topo_sort` loop of
`MaterialGraph.update_cum_lt_info` (graph.py, lines 379-401).  The state is
the pair of dicts (`cum_lt_of_node`, `longest_pred_of_node`).  For a
non-alternate node the predecessor loop updates only this node's two entries,
so it is folded into an accumulator and written back once.  For an alternate
node, `tmp` maps each active predecessor to `cum_lt[pred] + lt[n]`; `EXP`
takes the ratio-weighted sum, `MAX`/`MIN` fold Python's `max`/`min` over the
non-empty value list (`none` models the `ValueError` Python raises on an empty
sequence), any other mode leaves the entry unchanged, and `longest_pred` keeps
the predecessors whose term equals the chosen value.  A `none` from the
node-pool lookup models the `KeyError` on `self._nodes_pool[n_id]`. -/
def altCum (node : MaterialNodeState) (fallback : WithBot ℚ)
    (tmp : List (String × ℚ × WithBot ℚ)) : Option (WithBot ℚ) :=
  if node.alter_time_mode = "EXP" then
    some ((tmp.map fun x => WithBot.map (fun t => t * x.2.1) x.2.2).foldl (· + ·)
      (0 : WithBot ℚ))
  else if node.alter_time_mode = "MAX" then
    match tmp.map (fun x => x.2.2) with
    | [] => none
    | t :: ts => some (ts.foldl max t)
  else if node.alter_time_mode = "MIN" then
    match tmp.map (fun x => x.2.2) with
    | [] => none
    | t :: ts => some (ts.foldl min t)
  else some fallback

def cumStep (g : MaterialGraphState) (edges : List (String × String))
    (preds : String → List String) (n_id : String)
    (st : List (String × WithBot ℚ) × List (String × List String)) :
    Option (List (String × WithBot ℚ) × List (String × List String)) :=
  (alookup n_id g.nodes_pool).bind fun node =>
    if node.node_type ≠ "ALTER_MATERIAL" then
      let res := (preds n_id).foldl
        (fun cl p =>
          let tmp := (alookup p st.1).getD ⊥ + ((node.lt : ℚ) : WithBot ℚ)
          if cl.1 < tmp then (tmp, [p])
          else if cl.1 = tmp then (cl.1, cl.2 ++ [p]) else cl)
        ((alookup n_id st.1).getD ⊥, (alookup n_id st.2).getD [])
      some (aupdate n_id res.1 st.1, aupdate n_id res.2 st.2)
    else
      let tmp : List (String × ℚ × WithBot ℚ) := (incomingActiveInfo g edges n_id).map
        fun pr => (pr.1, pr.2, (alookup pr.1 st.1).getD ⊥ + ((node.lt : ℚ) : WithBot ℚ))
      (altCum node ((alookup n_id st.1).getD ⊥) tmp).map fun c =>
        (aupdate n_id c st.1,
          aupdate n_id ((tmp.filter fun x => decide (x.2.2 = c)).map Prod.fst) st.2)

/-- `MaterialGraph.update_cum_lt_info` (graph.py), run on a graph whose
derived topology is current (it reads `self.topo_sort`, the nodes'
`pred_nodes` and their `incoming_edges_info`, all of which
`update_topo_info` derives from the pools; the embedding recomputes those
derived views from the edge pool directly).  Root nodes have their
predecessor set replaced by the virtual `{'start'}` whose cumulative lead
time is 0; after the fold, `'start'` is popped and every pool node receives
its `(cum_lt, longest_pred)` pair — a pool node missing from either dict
makes the Python loop raise `KeyError`, modelled by `none`. -/
def update_cum_lt_info (g : MaterialGraphState) :
    Option (List (String × (WithBot ℚ × List String))) :=
  let edges := g.edges_pool.map Prod.fst
  let topo := if 0 < edges.length then find_topo_sort edges
    else g.nodes_pool.map Prod.fst
  let roots := rootsOf edges
  let preds : String → List String := fun j =>
    if j ∈ roots then ["start"] else find_preds_of_node edges j
  let cums0 := aupdate "start" (0 : WithBot ℚ) (topo.map fun j => (j, (⊥ : WithBot ℚ)))
  let longs0 := topo.map fun j => (j, ([] : List String))
  (topo.foldlM (fun st n_id => cumStep g edges preds n_id st) (cums0, longs0)).bind
    fun st =>
      g.nodes_pool.mapM fun jn =>
        (alookup jn.1 (aremove "start" st.1)).bind fun c =>
          (alookup jn.1 st.2).map fun L => (jn.1, (c, L))

/-- The cumulative lead time a finished result table assigns to a node
(`⊥` when the node is absent); used to state the recurrences of
`update_cum_lt_info` over its own output. -/
def resCum (res : List (String × (WithBot ℚ × List String))) (p : String) : WithBot ℚ :=
  ((alookup p res).map Prod.fst).getD ⊥

/-- `Node` (node.py), base-level state: the topological attributes shared by
all node levels.  The base `DiGraph.update_incoming_edges_info` stores an
empty attribute bag per incoming edge, so only the keys are kept. -/
structure DNodeState where
  node_id : String
  desc : Option String
  pred_nodes : List String
  succ_nodes : List String
  incoming_edges_info : List (String × String)

/-- `Node.add_pred_node` (node.py). -/
def add_pred_node (n : DNodeState) (new_pred_node : String) : DNodeState :=
  { n with pred_nodes := n.pred_nodes.insert new_pred_node }

/-- `Node.add_succ_node` (node.py), exactly as written in the source:
`self._pred_nodes.add(new_succ_node)`. -/
def add_succ_node (n : DNodeState) (new_succ_node : String) : DNodeState :=
  { n with pred_nodes := n.pred_nodes.insert new_succ_node }

/-- `Node.update_pred_nodes` (node.py). -/
def update_pred_nodes (n : DNodeState) (new_pred_nodes : List String) : DNodeState :=
  { n with pred_nodes := new_pred_nodes }

/-- `Node.update_succ_nodes` (node.py). -/
def update_succ_nodes (n : DNodeState) (new_succ_nodes : List String) : DNodeState :=
  { n with succ_nodes := new_succ_nodes }

/-- `DiGraph` (graph.py): node pool, edge pool (base-level edges carry no
attribute the modelled operations read, so only keys are kept), and the
derived fields set by `update_topo_info` (`None` until it runs). -/
structure DiGraphState where
  nodes_pool : List (String × DNodeState)
  edges_pool : List (String × String)
  root_nodes_pool : Option (List (String × DNodeState))
  sink_nodes_pool : Option (List (String × DNodeState))
  topo_sort : Option (List String)

/-- `DiGraph.update_topo_info` (graph.py): recomputes roots, sinks,
adjacency maps and the topological order, then pushes predecessor/successor
sets and incoming-edge keys into every pooled node.  The dict comprehensions
of `find_roots`/`find_sinks` look every root/sink id up in the node pool; a
missing id raises `KeyError`, modelled by `none`.  No other id referenced by
an edge is ever looked up. -/
def update_topo_info (g : DiGraphState) : Option DiGraphState :=
  let edges := g.edges_pool
  let root_ids := if 0 < edges.length then rootsOf edges else []
  ((root_ids.mapM fun j => (alookup j g.nodes_pool).map fun n => (j, n)).bind
    fun rpool =>
      let sink_ids := if 0 < edges.length then sinksOf edges
        else g.nodes_pool.map Prod.fst
      (sink_ids.mapM fun j => (alookup j g.nodes_pool).map fun n => (j, n)).bind
        fun spool =>
          let topo := if 0 < edges.length then find_topo_sort edges
            else g.nodes_pool.map Prod.fst
          let pool' := g.nodes_pool.map fun jn =>
            (jn.1, { jn.2 with
              pred_nodes := find_preds_of_node edges jn.1,
              succ_nodes := find_succs_of_node edges jn.1 })
          let pool'' := pool'.map fun jn =>
            (jn.1, { jn.2 with
              incoming_edges_info := jn.2.pred_nodes.map fun p => (p, jn.1) })
          some { nodes_pool := pool'', edges_pool := edges,
                 root_nodes_pool := some rpool, sink_nodes_pool := some spool,
                 topo_sort := some topo })

/-- One backward step: `b` is a predecessor of `a` in the edge list. -/
def predStep (edges : List (String × String)) (a b : String) : Prop :=
  b ∈ find_preds_of_node edges a

/-- `x` is an ancestor of `j` (reflexively): `j` reaches `x` going backward
along edges. -/
def IsAncestor (edges : List (String × String)) (j x : String) : Prop :=
  Relation.ReflTransGen (predStep edges) j x

/-- An edge list is acyclic (its successor map has no directed cycle). -/
def AcyclicEdges (edges : List (String × String)) : Prop :=
  AcyclicSuccs (find_succs_of_node edges)

/-- Every element of the list has all its successors strictly earlier in the
list (the defining property of a depth-first postorder on an acyclic graph). -/
def TopoClosed (succs : String → List String) (l : List String) : Prop :=
  ∀ l1 x l2, l = l1 ++ x :: l2 → ∀ y ∈ succs x, y ∈ l1

/-- A two-edge directed cycle. -/
def cycEdges : List (String × String) := [("a", "b"), ("b", "a")]

/-- A two-edge chain (a DAG). -/
def chainEdges : List (String × String) := [("a", "b"), ("b", "c")]

/-- A site graph in which the direct edge `A→B` (lead time 10) is more
expensive than the two-hop route `A→C→B` (2 + 2 = 4). -/
def siteEx : SiteGraphState where
  site_ids := ["A", "B", "C"]
  edges_pool :=
    [(("A", "B"), ⟨"A", "B", "co", "co", 10⟩),
     (("A", "C"), ⟨"A", "C", "co", "co", 2⟩),
     (("C", "B"), ⟨"C", "B", "co", "co", 2⟩)]

/-- A material edge with given endpoints and original quantity, decision
ratio 1 and transit lead time 0. -/
def mkMEdge (u v : String) (oq : ℚ) : MaterialEdgeState :=
  ⟨u, v, "s1", "s1", oq, 1, 0⟩

/-- The BOM diamond of the spec: `C` feeds `A1` (qty 2) and `A2` (qty 3),
both of which feed the finished good `F` (qty 1). -/
def diamondG : MaterialGraphState where
  nodes_pool := []
  edges_pool :=
    [(("C", "A1"), mkMEdge "C" "A1" 2),
     (("A1", "F"), mkMEdge "A1" "F" 1),
     (("C", "A2"), mkMEdge "C" "A2" 3),
     (("A2", "F"), mkMEdge "A2" "F" 1)]

/-- A fresh base-level node with the given id. -/
def mkDNode (i : String) : DNodeState := ⟨i, none, [], [], []⟩

/-- A graph whose edge pool references the id `b` that is absent from the
node pool, with `b` being an intermediate node (it has both an incoming and
an outgoing edge, so it is neither a root nor a sink). -/
def dgMissingMid : DiGraphState where
  nodes_pool := [("a", mkDNode "a"), ("c", mkDNode "c")]
  edges_pool := [("a", "b"), ("b", "c")]
  root_nodes_pool := none
  sink_nodes_pool := none
  topo_sort := none

/-- A well-formed two-node graph with one edge, with stale adjacency data on
node `a` (as left behind by `add_succ_node`). -/
def dgSmall : DiGraphState where
  nodes_pool := [("a", add_succ_node (mkDNode "a") "b"), ("b", mkDNode "b")]
  edges_pool := [("a", "b")]
  root_nodes_pool := none
  sink_nodes_pool := none
  topo_sort := none

/-- An alternate node with three incoming alternatives, all at decision
ratio 1. -/
def alterEx : MaterialNodeState :=
  { alterMaterialNodeInit "alt" "co" "s1" "m" none none none none none none none "MAX" with
      pred_nodes := ["p1", "p2", "p3"],
      incoming_edges_info :=
        [(("p1", "alt"), ⟨0, 1⟩), (("p2", "alt"), ⟨0, 1⟩), (("p3", "alt"), ⟨0, 1⟩)] }

/-- A material node with the given id, lead time, node type and
alternate-time mode, all other payload fields at the constructor defaults. -/
def mkMNode (i : String) (lt : ℚ) (ty mode : String) : MaterialNodeState :=
  ⟨i, "co", "s1", i, none, none, none, 0, 0, lt, none, none, none, none, 0,
    ty, mode, [], [], [], none, none⟩

/-- The chain of the spec example: root `R` (`lt = 5`) feeding `N`
(`lt = 3`). -/
def chainG : MaterialGraphState where
  nodes_pool := [("R", mkMNode "R" 5 "MATERIAL" ""), ("N", mkMNode "N" 3 "MATERIAL" "")]
  edges_pool := [(("R", "N"), mkMEdge "R" "N" 1)]

/-- A graph holding a single node `R` (`lt = 5`) and no edges at all. -/
def isoG : MaterialGraphState where
  nodes_pool := [("R", mkMNode "R" 5 "MATERIAL" "")]
  edges_pool := []

/-- Two root materials with cumulative lead times 10 and 20 feeding one
alternate node (`lt = 0`) with decision ratio 1/2 on both incoming edges. -/
def altG (mode : String) : MaterialGraphState where
  nodes_pool :=
    [("P1", mkMNode "P1" 10 "MATERIAL" ""), ("P2", mkMNode "P2" 20 "MATERIAL" ""),
     ("ALT", mkMNode "ALT" 0 "ALTER_MATERIAL" mode)]
  edges_pool :=
    [(("P1", "ALT"), ⟨"P1", "ALT", "s1", "s1", 1, 1/2, 0⟩),
     (("P2", "ALT"), ⟨"P2", "ALT", "s1", "s1", 1, 1/2, 0⟩)]

/-! ### Association-list lemmas -/

theorem alookup_aupdate_self {β : Type} (k : String) (v : β) (l : List (String × β)) :
    alookup k (aupdate k v l) = some v := by
  induction l with
  | nil => simp [alookup, aupdate]
  | cons p l ih =>
      by_cases h : p.1 = k
      · simp [aupdate, alookup, h]
      · simpa [aupdate, alookup, h] using ih

theorem alookup_aupdate_ne {β : Type} {k k' : String} (v : β) (l : List (String × β))
    (h : k' ≠ k) : alookup k' (aupdate k v l) = alookup k' l := by
  induction l with
  | nil =>
      simp only [aupdate, alookup, if_neg (Ne.symm h)]
  | cons p l ih =>
      obtain ⟨a, b⟩ := p
      by_cases hp : a = k
      · subst hp
        simp only [aupdate, if_pos rfl, alookup]
        rw [if_neg (fun hk : a = k' => h hk.symm), if_neg (fun hk : a = k' => h hk.symm)]
      · simp only [aupdate, if_neg hp, alookup]
        by_cases hp' : a = k'
        · rw [if_pos hp', if_pos hp']
        · rw [if_neg hp', if_neg hp']
          exact ih

theorem keys_aupdate {β : Type} (k m : String) (v : β) (l : List (String × β)) :
    m ∈ (aupdate k v l).map Prod.fst ↔ m = k ∨ m ∈ l.map Prod.fst := by
  induction l with
  | nil => simp [aupdate]
  | cons p l ih =>
      obtain ⟨a, b⟩ := p
      by_cases hp : a = k
      · subst hp
        simp only [aupdate, if_pos rfl, ite_true, List.map_cons, List.mem_cons]
        tauto
      · simp only [aupdate, if_neg hp, ite_false, List.map_cons, List.mem_cons, ih]
        tauto

theorem alookup_aremove_ne {β : Type} {k k' : String} (l : List (String × β))
    (h : k' ≠ k) : alookup k' (aremove k l) = alookup k' l := by
  induction l with
  | nil => simp [aremove]
  | cons p l ih =>
      obtain ⟨a, b⟩ := p
      by_cases hp : a = k
      · subst hp
        simp [aremove, alookup, Ne.symm h]
      · simp only [aremove, if_neg hp, ite_false, alookup]
        by_cases hp' : a = k'
        · rw [if_pos hp', if_pos hp']
        · rw [if_neg hp', if_neg hp']
          exact ih

theorem alookup_eq_none_iff {β : Type} (k : String) (l : List (String × β)) :
    alookup k l = none ↔ k ∉ l.map Prod.fst := by
  induction l with
  | nil => simp [alookup]
  | cons p l ih =>
      by_cases hp : p.1 = k
      · simp [alookup, hp]
      · simp only [alookup, if_neg hp, List.map_cons, List.mem_cons, ih]
        constructor
        · rintro h (rfl | hm)
          · exact hp rfl
          · exact h hm
        · intro h hm
          exact h (Or.inr hm)

theorem alookup_isSome_iff {β : Type} (k : String) (l : List (String × β)) :
    (alookup k l).isSome = true ↔ k ∈ l.map Prod.fst := by
  rcases h : alookup k l with _ | v
  · simp only [Option.isSome_none, Bool.false_eq_true, false_iff]
    exact (alookup_eq_none_iff k l).mp h
  · simp only [Option.isSome_some, true_iff]
    by_contra hm
    rw [(alookup_eq_none_iff k l).mpr hm] at h
    cases h

theorem alookup_mem {β : Type} {k : String} {v : β} {l : List (String × β)}
    (h : alookup k l = some v) : (k, v) ∈ l := by
  induction l with
  | nil => simp [alookup] at h
  | cons p l ih =>
      obtain ⟨a, b⟩ := p
      by_cases hp : a = k
      · simp only [alookup, if_pos hp] at h
        cases h
        subst hp
        exact List.mem_cons_self _ _
      · simp only [alookup, if_neg hp] at h
        exact List.mem_cons_of_mem _ (ih h)

theorem alookup2_mem {β : Type} {k : String × String} {v : β}
    {l : List ((String × String) × β)} (h : alookup2 k l = some v) : (k, v) ∈ l := by
  induction l with
  | nil => simp [alookup2] at h
  | cons p l ih =>
      obtain ⟨a, b⟩ := p
      by_cases hp : a = k
      · simp only [alookup2, if_pos hp] at h
        cases h
        subst hp
        exact List.mem_cons_self _ _
      · simp only [alookup2, if_neg hp] at h
        exact List.mem_cons_of_mem _ (ih h)

theorem alookup2_of_mem_nodup {β : Type} {k : String × String} {v : β}
    {l : List ((String × String) × β)} (hm : (k, v) ∈ l)
    (hnd : (l.map Prod.fst).Nodup) : alookup2 k l = some v := by
  induction l with
  | nil => cases hm
  | cons p l ih =>
      simp only [List.map_cons, List.nodup_cons] at hnd
      rcases List.mem_cons.mp hm with rfl | hm'
      · simp [alookup2]
      · have hne : p.1 ≠ k := by
          intro h
          exact hnd.1 (h ▸ List.mem_map.mpr ⟨(k, v), hm', rfl⟩)
        simp only [alookup2, if_neg hne]
        exact ih hm' hnd.2

/-! ### Lemmas about the basic graph views -/

theorem mem_nodesOf {edges : List (String × String)} {x : String} :
    x ∈ nodesOf edges ↔ x ∈ edges.map Prod.fst ∨ x ∈ edges.map Prod.snd := by
  rw [nodesOf, List.mem_dedup, List.mem_append]

theorem nodesOf_nodup (edges : List (String × String)) : (nodesOf edges).Nodup :=
  List.nodup_dedup _

theorem mem_find_succs {edges : List (String × String)} {a b : String} :
    b ∈ find_succs_of_node edges a ↔ (a, b) ∈ edges := by
  rw [find_succs_of_node, List.mem_dedup, List.mem_filterMap]
  constructor
  · rintro ⟨e, he, hsome⟩
    by_cases h : e.1 = a
    · rw [if_pos h] at hsome
      cases hsome
      rwa [← h, Prod.mk.eta]
    · rw [if_neg h] at hsome
      cases hsome
  · intro h
    exact ⟨(a, b), h, by simp⟩

theorem mem_find_preds {edges : List (String × String)} {a b : String} :
    a ∈ find_preds_of_node edges b ↔ (a, b) ∈ edges := by
  rw [find_preds_of_node, List.mem_dedup, List.mem_filterMap]
  constructor
  · rintro ⟨e, he, hsome⟩
    by_cases h : e.2 = b
    · rw [if_pos h] at hsome
      cases hsome
      rwa [← h, Prod.mk.eta]
    · rw [if_neg h] at hsome
      cases hsome
  · intro h
    exact ⟨(a, b), h, by simp⟩

theorem mem_rootsOf {edges : List (String × String)} {x : String} :
    x ∈ rootsOf edges ↔ x ∈ edges.map Prod.fst ∧ x ∉ edges.map Prod.snd := by
  rw [rootsOf, List.mem_dedup, List.mem_filter]
  simp

theorem mem_sinksOf {edges : List (String × String)} {x : String} :
    x ∈ sinksOf edges ↔ x ∈ edges.map Prod.snd ∧ x ∉ edges.map Prod.fst := by
  rw [sinksOf, List.mem_dedup, List.mem_filter]
  simp

theorem succs_subset_nodesOf {edges : List (String × String)} {a b : String}
    (h : b ∈ find_succs_of_node edges a) : b ∈ nodesOf edges :=
  mem_nodesOf.mpr (Or.inr (List.mem_map.mpr ⟨(a, b), mem_find_succs.mp h, rfl⟩))

theorem preds_subset_nodesOf {edges : List (String × String)} {a b : String}
    (h : a ∈ find_preds_of_node edges b) : a ∈ nodesOf edges :=
  mem_nodesOf.mpr (Or.inl (List.mem_map.mpr ⟨(a, b), mem_find_preds.mp h, rfl⟩))

/-! ### Order-in-list lemmas -/

theorem reverse_comesBefore {p1 p2 p3 : List String} {u v : String} :
    comesBefore (p1 ++ v :: p2 ++ u :: p3).reverse u v := by
  refine ⟨p3.reverse, p2.reverse, p1.reverse, ?_⟩
  simp [List.reverse_append, List.append_assoc]

theorem indexOf_append_cons_self {x : String} (l1 l2 : List String) (hx : x ∉ l1) :
    (l1 ++ x :: l2).indexOf x = l1.length := by
  induction l1 with
  | nil => simp
  | cons a t ih =>
      have hax : a ≠ x := fun h => hx (h ▸ List.mem_cons_self a t)
      simp only [List.cons_append, List.length_cons]
      rw [List.indexOf_cons_ne _ hax, ih fun h => hx (List.mem_cons_of_mem _ h)]

theorem comesBefore_indexOf_lt {l : List String} {u v : String}
    (h : comesBefore l u v) (hnd : l.Nodup) : l.indexOf u < l.indexOf v := by
  obtain ⟨l1, l2, l3, rfl⟩ := h
  have hndl : (l1 ++ u :: l2).Nodup := hnd.of_append_left
  have hdisj1 : List.Disjoint l1 (u :: l2) := List.disjoint_of_nodup_append hndl
  have hu1 : u ∉ l1 := fun hm => hdisj1 hm (List.mem_cons_self _ _)
  have hdisj2 : List.Disjoint (l1 ++ u :: l2) (v :: l3) :=
    List.disjoint_of_nodup_append hnd
  have hv12 : v ∉ l1 ++ u :: l2 := fun hm => hdisj2 hm (List.mem_cons_self _ _)
  have e1 : (l1 ++ u :: l2 ++ v :: l3).indexOf u = l1.length := by
    rw [List.append_assoc, List.cons_append]
    exact indexOf_append_cons_self l1 (l2 ++ v :: l3) hu1
  have e2 : (l1 ++ u :: l2 ++ v :: l3).indexOf v = (l1 ++ u :: l2).length :=
    indexOf_append_cons_self (l1 ++ u :: l2) l3 hv12
  rw [e1, e2, List.length_append, List.length_cons]
  omega

/-! ### Acyclicity helpers -/

theorem transGen_rank_lt {edges : List (String × String)} {rank : String → Nat}
    (h : ∀ e ∈ edges, rank e.1 < rank e.2) {a b : String}
    (hab : Relation.TransGen (succStep (find_succs_of_node edges)) a b) :
    rank a < rank b := by
  induction hab with
  | single hstep => exact h _ (mem_find_succs.mp hstep)
  | tail _ hstep ih => exact ih.trans (h _ (mem_find_succs.mp hstep))

theorem acyclic_of_rank (edges : List (String × String)) (rank : String → Nat)
    (h : ∀ e ∈ edges, rank e.1 < rank e.2) : AcyclicEdges edges := by
  intro x hx
  exact lt_irrefl _ (transGen_rank_lt h hx)

theorem acyclic_of_ordered (edges : List (String × String)) (l : List String)
    (hnd : l.Nodup) (h : ∀ e ∈ edges, comesBefore l e.1 e.2) : AcyclicEdges edges :=
  acyclic_of_rank edges (fun x => l.indexOf x)
    (fun e he => comesBefore_indexOf_lt (h e he) hnd)

/-! ### Run lemmas for the topological-sort DFS -/

theorem dfsTopo_run (succs : String → List String) (univ : Finset String)
    (hs : ∀ v, v ∉ univ → succs v = [])
    (hsub : ∀ a b, b ∈ succs a → b ∈ univ) :
    ∀ (ws : List String) (st : Finset String × List String), ∀ gs : List String,
    (∀ x, x ∈ st.1 ↔ (x ∈ gs ∨ x ∈ st.2)) → st.2.Nodup →
    (∀ x ∈ gs, x ∉ st.2) → (∀ v ∈ ws, v ∈ univ) → (∀ x ∈ st.1, x ∈ univ) →
    (∃ d, ((dfsTopo succs univ hs ws st).1).2 = st.2 ++ d) ∧
    (∀ x, x ∈ ((dfsTopo succs univ hs ws st).1).1 ↔
      (x ∈ gs ∨ x ∈ ((dfsTopo succs univ hs ws st).1).2)) ∧
    ((dfsTopo succs univ hs ws st).1).2.Nodup ∧
    (∀ x ∈ gs, x ∉ ((dfsTopo succs univ hs ws st).1).2) ∧
    (∀ v ∈ ws, v ∈ ((dfsTopo succs univ hs ws st).1).1) ∧
    (∀ x ∈ ((dfsTopo succs univ hs ws st).1).1, x ∈ univ) := by
  intro ws st
  induction ws, st using dfsTopo.induct succs univ hs with
  | case1 st =>
      intro gs hv hnd hgd _hws hvu
      rw [dfsTopo]
      exact ⟨⟨[], by simp⟩, hv, hnd, hgd, by simp, hvu⟩
  | case2 v vs st hvin ih =>
      intro gs hv hnd hgd hws hvu
      rw [dfsTopo]
      simp only [dif_pos hvin]
      obtain ⟨c1, c2, c3, c4, c5, c6⟩ :=
        ih gs hv hnd hgd (fun w hw => hws w (List.mem_cons_of_mem _ hw)) hvu
      refine ⟨c1, c2, c3, c4, ?_, c6⟩
      intro w hw
      rcases List.mem_cons.mp hw with rfl | hw'
      · exact (dfsTopo succs univ hs vs st).2 hvin
      · exact c5 w hw'
  | case3 v vs st hvin r1v ihInner ihCont =>
      intro gs hv hnd hgd hws hvu
      have hr1 : r1v = dfsTopo succs univ hs (succs v) (insert v st.1, st.2) := rfl
      rw [hr1] at ihCont
      rw [dfsTopo]
      simp only [dif_neg hvin]
      have hvuniv : v ∈ univ := hws v (List.mem_cons_self _ _)
      have hvnot2 : v ∉ st.2 := fun hm => hvin ((hv v).mpr (Or.inr hm))
      have hvnotg : v ∉ gs := fun hm => hvin ((hv v).mpr (Or.inl hm))
      -- inner call, gray extended by v
      obtain ⟨d1, c2, c3, c4, c5, c6⟩ := ihInner (v :: gs)
        (by
          intro x
          simp only [Finset.mem_insert, List.mem_cons]
          rw [hv x]
          tauto)
        hnd
        (by
          intro x hx
          rcases List.mem_cons.mp hx with rfl | hx'
          · exact hvnot2
          · exact hgd x hx')
        (fun w hw => hsub v w hw)
        (by
          intro x hx
          rcases Finset.mem_insert.mp hx with rfl | hx'
          · exact hvuniv
          · exact hvu x hx')
      obtain ⟨e1, he1⟩ := d1
      -- continuation call on the state with v appended to the postorder
      obtain ⟨d1', c2', c3', c4', c5', c6'⟩ := ihCont gs
        (by
          intro x
          rw [c2 x]
          simp only [List.mem_cons, List.mem_append, List.mem_singleton]
          tauto)
        (by
          rw [List.nodup_append]
          exact ⟨c3, List.nodup_singleton v,
            fun x hx hxv => (c4 v (List.mem_cons_self _ _))
              ((List.mem_singleton.mp hxv) ▸ hx)⟩)
        (by
          intro x hx
          rw [List.mem_append, List.mem_singleton]
          rintro (hx2 | rfl)
          · exact c4 x (List.mem_cons_of_mem _ hx) hx2
          · exact hvnotg hx)
        (fun w hw => hws w (List.mem_cons_of_mem _ hw))
        c6
      obtain ⟨e2, he2⟩ := d1'
      refine ⟨⟨e1 ++ [v] ++ e2, ?_⟩, c2', c3', c4', ?_, c6'⟩
      · rw [he2, he1]
        simp [List.append_assoc]
      · intro w hw
        rcases List.mem_cons.mp hw with rfl | hw'
        · refine (dfsTopo succs univ hs vs _).2 ?_
          exact (dfsTopo succs univ hs (succs w) (insert w st.1, st.2)).2
            (Finset.mem_insert_self w st.1)
        · exact c5' w hw'

theorem chain'_reflTransGen_getLast {R : String → String → Prop} :
    ∀ {l : List String}, List.Chain' R l → ∀ {x z : String}, x ∈ l →
      l.getLast? = some z → Relation.ReflTransGen R x z := by
  intro l
  induction l with
  | nil => intro _ x z hx; cases hx
  | cons a t ih =>
      intro hch x z hx hlast
      cases t with
      | nil =>
          rcases List.mem_singleton.mp hx with rfl
          simp only [List.getLast?_singleton, Option.some.injEq] at hlast
          exact hlast ▸ Relation.ReflTransGen.refl
      | cons b t' =>
          have hch' : List.Chain' R (b :: t') := hch.tail
          have hR : R a b := List.chain'_cons.mp hch |>.1
          have hlast' : (b :: t').getLast? = some z := by
            rwa [List.getLast?_cons_cons] at hlast
          rcases List.mem_cons.mp hx with rfl | hx'
          · exact Relation.ReflTransGen.head hR
              (ih hch' (List.mem_cons_self _ _) hlast')
          · exact ih hch' hx' hlast'

theorem append_singleton_eq_cases {A l1 l2 : List String} {v x : String}
    (h : A ++ [v] = l1 ++ x :: l2) :
    (x = v ∧ l1 = A ∧ l2 = []) ∨ (∃ l2', A = l1 ++ x :: l2' ∧ l2 = l2' ++ [v]) := by
  rcases List.eq_nil_or_concat l2 with rfl | ⟨l2', w, rfl⟩
  · left
    have h' : A ++ [v] = l1 ++ [x] := h
    have hlen : A.length = l1.length := by
      have hl := congrArg List.length h'
      simp only [List.length_append, List.length_cons, List.length_nil] at hl
      omega
    obtain ⟨h1, h2⟩ := List.append_inj h' hlen
    have hx : x = v := by
      simp only [List.cons.injEq] at h2
      exact h2.1.symm
    exact ⟨hx, h1.symm, rfl⟩
  · right
    have h' : A ++ [v] = (l1 ++ x :: l2') ++ [w] := by
      rw [h]
      simp [List.append_assoc]
    have hlen : A.length = (l1 ++ x :: l2').length := by
      have hl := congrArg List.length h'
      simp only [List.length_append, List.length_cons, List.length_nil] at hl ⊢
      omega
    obtain ⟨h1, h2⟩ := List.append_inj h' hlen
    have hw : v = w := by
      simp only [List.cons.injEq] at h2
      exact h2.1
    exact ⟨l2', h1, by rw [hw, List.concat_eq_append]⟩

theorem topoClosed_append_singleton {succs : String → List String}
    {A : List String} {v : String} (hA : TopoClosed succs A)
    (hv : ∀ y ∈ succs v, y ∈ A) : TopoClosed succs (A ++ [v]) := by
  intro l1 x l2 hdec y hy
  rcases append_singleton_eq_cases hdec with ⟨rfl, rfl, rfl⟩ | ⟨l2', hA', _⟩
  · exact hv y hy
  · exact hA l1 x l2' hA' y hy

theorem dfsTopo_ordered (succs : String → List String) (univ : Finset String)
    (hs : ∀ v, v ∉ univ → succs v = [])
    (hsub : ∀ a b, b ∈ succs a → b ∈ univ)
    (hacy : AcyclicSuccs succs) :
    ∀ (ws : List String) (st : Finset String × List String), ∀ gs : List String,
    (∀ x, x ∈ st.1 ↔ (x ∈ gs ∨ x ∈ st.2)) → st.2.Nodup →
    (∀ x ∈ gs, x ∉ st.2) → (∀ v ∈ ws, v ∈ univ) → (∀ x ∈ st.1, x ∈ univ) →
    List.Chain' (fun a b => b ∈ succs a) gs →
    (∀ g, gs.getLast? = some g → ∀ w ∈ ws, w ∈ succs g) →
    TopoClosed succs st.2 →
    TopoClosed succs ((dfsTopo succs univ hs ws st).1).2 := by
  intro ws st
  induction ws, st using dfsTopo.induct succs univ hs with
  | case1 st =>
      intro gs _hv _hnd _hgd _hws _hvu _hch _hlast htc
      rw [dfsTopo]
      exact htc
  | case2 v vs st hvin ih =>
      intro gs hv hnd hgd hws hvu hch hlast htc
      rw [dfsTopo]
      simp only [dif_pos hvin]
      exact ih gs hv hnd hgd (fun w hw => hws w (List.mem_cons_of_mem _ hw)) hvu hch
        (fun g hg w hw => hlast g hg w (List.mem_cons_of_mem _ hw)) htc
  | case3 v vs st hvin r1v ihInner ihCont =>
      intro gs hv hnd hgd hws hvu hch hlast htc
      have hr1 : r1v = dfsTopo succs univ hs (succs v) (insert v st.1, st.2) := rfl
      rw [hr1] at ihCont
      rw [dfsTopo]
      simp only [dif_neg hvin]
      have hvuniv : v ∈ univ := hws v (List.mem_cons_self _ _)
      have hvnot2 : v ∉ st.2 := fun hm => hvin ((hv v).mpr (Or.inr hm))
      have hvnotg : v ∉ gs := fun hm => hvin ((hv v).mpr (Or.inl hm))
      have hv' : ∀ x, x ∈ (insert v st.1, st.2).1 ↔ (x ∈ v :: gs ∨ x ∈ (insert v st.1, st.2).2) := by
        intro x
        simp only [Finset.mem_insert, List.mem_cons]
        rw [hv x]
        tauto
      have hgd' : ∀ x ∈ v :: gs, x ∉ (insert v st.1, st.2).2 := by
        intro x hx
        rcases List.mem_cons.mp hx with rfl | hx'
        · exact hvnot2
        · exact hgd x hx'
      have hvu' : ∀ x ∈ (insert v st.1, st.2).1, x ∈ univ := by
        intro x hx
        rcases Finset.mem_insert.mp hx with rfl | hx'
        · exact hvuniv
        · exact hvu x hx'
      have hch' : List.Chain' (fun a b => b ∈ succs a) (gs ++ [v]) := by
        rw [List.chain'_append]
        refine ⟨hch, List.chain'_singleton v, ?_⟩
        intro g hg w hw
        rw [List.head?_cons, Option.mem_def, Option.some.injEq] at hw
        subst hw
        exact hlast g hg v (List.mem_cons_self _ _)
      -- the gray stack with v on top, as needed by the inner call
      have hchcons : List.Chain' (fun a b => b ∈ succs a) (gs ++ [v]) := hch'
      -- basic run facts about the inner call
      obtain ⟨⟨e1, he1⟩, c2, c3, c4, c5, c6⟩ :=
        dfsTopo_run succs univ hs hsub (succs v) (insert v st.1, st.2) (v :: gs)
          hv' hnd hgd' (fun w hw => hsub v w hw) hvu'
      -- ordered fact about the inner call
      have htc1 : TopoClosed succs
          ((dfsTopo succs univ hs (succs v) (insert v st.1, st.2)).1).2 := by
        refine ihInner (gs ++ [v]) ?_ hnd ?_ (fun w hw => hsub v w hw) hvu' hchcons ?_ htc
        · intro x
          rw [hv' x]
          simp only [List.mem_cons, List.mem_append, List.mem_singleton]
          tauto
        · intro x hx
          rcases List.mem_append.mp hx with hx' | hx'
          · exact hgd x hx'
          · rcases List.mem_singleton.mp hx' with rfl
            exact hvnot2
        · intro g hg w hw
          rw [List.getLast?_append_cons, List.getLast?_singleton] at hg
          cases hg
          exact hw
      -- v can be appended: all its successors are already in the postorder
      have hvclosed : ∀ y ∈ succs v,
          y ∈ ((dfsTopo succs univ hs (succs v) (insert v st.1, st.2)).1).2 := by
        intro y hy
        have hyvis := c5 y hy
        rcases (c2 y).mp hyvis with hyg | hyp
        · exfalso
          rcases List.mem_cons.mp hyg with rfl | hyg'
          · exact hacy y (Relation.TransGen.single hy)
          · have hreach : Relation.ReflTransGen (fun a b => b ∈ succs a) y v :=
              chain'_reflTransGen_getLast hchcons
                (List.mem_append.mpr (Or.inl hyg'))
                (by rw [List.getLast?_append_cons, List.getLast?_singleton])
            have : Relation.TransGen (succStep succs) v v :=
              Relation.TransGen.head' hy hreach
            exact hacy v this
        · exact hyp
      -- the continuation preserves closedness
      refine ihCont gs ?_ ?_ ?_ (fun w hw => hws w (List.mem_cons_of_mem _ hw)) c6 hch
        (fun g hg w hw => hlast g hg w (List.mem_cons_of_mem _ hw)) ?_
      · intro x
        rw [c2 x]
        simp only [List.mem_cons, List.mem_append, List.mem_singleton]
        tauto
      · rw [List.nodup_append]
        exact ⟨c3, List.nodup_singleton v,
          fun x hx hxv => (c4 v (List.mem_cons_self _ _))
            ((List.mem_singleton.mp hxv) ▸ hx)⟩
      · intro x hx
        rw [List.mem_append, List.mem_singleton]
        rintro (hx2 | rfl)
        · exact c4 x (List.mem_cons_of_mem _ hx) hx2
        · exact hvnotg hx
      · exact topoClosed_append_singleton htc1 hvclosed

/-! ### Correctness of `find_topo_sort` -/

theorem find_topo_sort_nodup (edges : List (String × String)) :
    (find_topo_sort edges).Nodup := by
  obtain ⟨_, _, c3, _, _, _⟩ :=
    dfsTopo_run (find_succs_of_node edges) (nodesOf edges).toFinset
      (succsNilOutside edges)
      (fun a b h => List.mem_toFinset.mpr (succs_subset_nodesOf h))
      (nodesOf edges) (∅, []) []
      (by simp) List.nodup_nil (by simp)
      (fun v hv => List.mem_toFinset.mpr hv) (by simp)
  rw [find_topo_sort]
  exact List.nodup_reverse.mpr c3

theorem mem_find_topo_sort {edges : List (String × String)} {x : String} :
    x ∈ find_topo_sort edges ↔ x ∈ nodesOf edges := by
  obtain ⟨_, c2, _, _, c5, c6⟩ :=
    dfsTopo_run (find_succs_of_node edges) (nodesOf edges).toFinset
      (succsNilOutside edges)
      (fun a b h => List.mem_toFinset.mpr (succs_subset_nodesOf h))
      (nodesOf edges) (∅, []) []
      (by simp) List.nodup_nil (by simp)
      (fun v hv => List.mem_toFinset.mpr hv) (by simp)
  rw [find_topo_sort, List.mem_reverse]
  constructor
  · intro h
    have hvis := (c2 x).mpr (Or.inr h)
    exact List.mem_toFinset.mp (c6 x hvis)
  · intro h
    rcases (c2 x).mp (c5 x h) with hg | hp
    · cases hg
    · exact hp

theorem find_topo_sort_sorted {edges : List (String × String)}
    (hacy : AcyclicEdges edges) :
    ∀ e ∈ edges, comesBefore (find_topo_sort edges) e.1 e.2 := by
  have htc : TopoClosed (find_succs_of_node edges)
      ((dfsTopo (find_succs_of_node edges) (nodesOf edges).toFinset
        (succsNilOutside edges) (nodesOf edges) (∅, [])).1).2 := by
    refine dfsTopo_ordered (find_succs_of_node edges) (nodesOf edges).toFinset
      (succsNilOutside edges)
      (fun a b h => List.mem_toFinset.mpr (succs_subset_nodesOf h))
      hacy (nodesOf edges) (∅, []) []
      (by simp) List.nodup_nil (by simp)
      (fun v hv => List.mem_toFinset.mpr hv) (by simp)
      List.chain'_nil (by simp) ?_
    intro l1 x l2 h
    exact absurd h (by simp)
  intro e he
  have h1 : e.1 ∈ ((dfsTopo (find_succs_of_node edges) (nodesOf edges).toFinset
      (succsNilOutside edges) (nodesOf edges) (∅, [])).1).2 := by
    have hm : e.1 ∈ find_topo_sort edges :=
      mem_find_topo_sort.mpr
        (mem_nodesOf.mpr (Or.inl (List.mem_map.mpr ⟨e, he, rfl⟩)))
    rw [find_topo_sort, List.mem_reverse] at hm
    exact hm
  obtain ⟨l1, l2, hP⟩ := List.append_of_mem h1
  have hsucc : e.2 ∈ find_succs_of_node edges e.1 := by
    rw [mem_find_succs]
    exact (Prod.mk.eta (p := e)) ▸ he
  have h2 : e.2 ∈ l1 := htc l1 e.1 l2 hP e.2 hsucc
  obtain ⟨p1, p2, hl1⟩ := List.append_of_mem h2
  rw [find_topo_sort]
  rw [hP, hl1]
  exact reverse_comesBefore

/-! ### Run lemmas for the closure DFS -/

theorem dfsClos_tasks_visited (adj : String → List String) (univ : Finset String)
    (hs : ∀ v, v ∉ univ → adj v = []) (mk : String → String → (String × String)) :
    ∀ (ts : List (String × String)) (st : List String × List (String × String)),
    ∀ p ∈ ts, p.2 ∈ ((dfsClos adj univ hs mk ts st).1).1 := by
  intro ts st
  induction ts, st using dfsClos.induct adj univ hs mk with
  | case1 st => intro p hp; cases hp
  | case2 n q ts st hq ih =>
      intro p hp
      rw [dfsClos]
      simp only [dif_pos hq]
      rcases List.mem_cons.mp hp with rfl | hp'
      · exact (dfsClos adj univ hs mk ts _).2 q hq
      · exact ih p hp'
  | case3 n q ts st hq r1v ihInner ihCont =>
      intro p hp
      have hr1 : r1v = dfsClos adj univ hs mk ((adj q).map fun w => (q, w))
          (q :: st.1, st.2 ++ [mk n q]) := rfl
      rw [hr1] at ihCont
      rw [dfsClos]
      simp only [dif_neg hq]
      rcases List.mem_cons.mp hp with rfl | hp'
      · refine (dfsClos adj univ hs mk ts _).2 q ?_
        exact (dfsClos adj univ hs mk ((adj q).map fun w => (q, w))
          (q :: st.1, st.2 ++ [mk n q])).2 q (List.mem_cons_self _ _)
      · exact ihCont p hp'

theorem dfsClos_closed (adj : String → List String) (univ : Finset String)
    (hs : ∀ v, v ∉ univ → adj v = []) (mk : String → String → (String × String)) :
    ∀ (ts : List (String × String)) (st : List String × List (String × String)),
    ∀ c ∈ ((dfsClos adj univ hs mk ts st).1).1, ∀ w ∈ adj c,
      w ∈ ((dfsClos adj univ hs mk ts st).1).1 ∨ (c ∈ st.1 ∧ ¬ (c, w) ∈ ts) := by
  intro ts st
  induction ts, st using dfsClos.induct adj univ hs mk with
  | case1 st =>
      intro c hc w hw
      rw [dfsClos] at hc ⊢
      exact Or.inr ⟨hc, fun h => List.not_mem_nil _ h⟩
  | case2 n q ts st hq ih =>
      intro c hc w hw
      rw [dfsClos] at hc ⊢
      simp only [dif_pos hq] at hc ⊢
      rcases ih c hc w hw with h | ⟨hcs, hcw⟩
      · exact Or.inl h
      · by_cases he : (c, w) = (n, q)
        · left
          have hwq : w = q := congrArg Prod.snd he
          exact (dfsClos adj univ hs mk ts _).2 w (hwq ▸ hq)
        · right
          refine ⟨hcs, ?_⟩
          intro hm
          rcases List.mem_cons.mp hm with h' | h'
          · exact he h'
          · exact hcw h'
  | case3 n q ts st hq r1v ihInner ihCont =>
      intro c hc w hw
      have hr1 : r1v = dfsClos adj univ hs mk ((adj q).map fun w => (q, w))
          (q :: st.1, st.2 ++ [mk n q]) := rfl
      rw [hr1] at ihCont
      rw [dfsClos] at hc ⊢
      simp only [dif_neg hq] at hc ⊢
      rcases ihCont c hc w hw with h | ⟨hcs, hcw⟩
      · exact Or.inl h
      · -- c is in the inner call's visited set
        rcases ihInner c hcs w hw with h | ⟨hcs', hcw'⟩
        · left
          exact (dfsClos adj univ hs mk ts _).2 w h
        · rcases List.mem_cons.mp hcs' with rfl | hcs''
          · exfalso
            exact hcw' (List.mem_map.mpr ⟨w, hw, rfl⟩)
          · by_cases he : (c, w) = (n, q)
            · left
              have hwq : w = q := congrArg Prod.snd he
              refine (dfsClos adj univ hs mk ts _).2 w ?_
              refine (dfsClos adj univ hs mk ((adj q).map fun w => (q, w))
                (q :: st.1, st.2 ++ [mk n q])).2 w ?_
              exact hwq ▸ List.mem_cons_self _ _
            · right
              refine ⟨hcs'', ?_⟩
              intro hm
              rcases List.mem_cons.mp hm with h' | h'
              · exact he h'
              · exact hcw h'

theorem dfsClos_sound (adj : String → List String) (univ : Finset String)
    (hs : ∀ v, v ∉ univ → adj v = []) (mk : String → String → (String × String))
    (S : String → Prop) (hcl : ∀ a b, S a → b ∈ adj a → S b) :
    ∀ (ts : List (String × String)) (st : List String × List (String × String)),
    (∀ x ∈ st.1, S x) → (∀ p ∈ ts, p.1 ∈ st.1 ∧ p.2 ∈ adj p.1) →
    ∀ x ∈ ((dfsClos adj univ hs mk ts st).1).1, S x := by
  intro ts st
  induction ts, st using dfsClos.induct adj univ hs mk with
  | case1 st =>
      intro hst _hts x hx
      rw [dfsClos] at hx
      exact hst x hx
  | case2 n q ts st hq ih =>
      intro hst hts x hx
      rw [dfsClos] at hx
      simp only [dif_pos hq] at hx
      exact ih hst (fun p hp => hts p (List.mem_cons_of_mem _ hp)) x hx
  | case3 n q ts st hq r1v ihInner ihCont =>
      intro hst hts x hx
      have hr1 : r1v = dfsClos adj univ hs mk ((adj q).map fun w => (q, w))
          (q :: st.1, st.2 ++ [mk n q]) := rfl
      rw [hr1] at ihCont
      rw [dfsClos] at hx
      simp only [dif_neg hq] at hx
      have hSq : S q := by
        obtain ⟨hn, hq'⟩ := hts (n, q) (List.mem_cons_self _ _)
        exact hcl n q (hst n hn) hq'
      have hst1 : ∀ y ∈ q :: st.1, S y := by
        intro y hy
        rcases List.mem_cons.mp hy with rfl | hy'
        · exact hSq
        · exact hst y hy'
      have hinner : ∀ y ∈ ((dfsClos adj univ hs mk ((adj q).map fun w => (q, w))
          (q :: st.1, st.2 ++ [mk n q])).1).1, S y := by
        refine ihInner hst1 ?_
        intro p hp
        obtain ⟨w, hw, rfl⟩ := List.mem_map.mp hp
        exact ⟨List.mem_cons_self _ _, hw⟩
      refine ihCont hinner ?_ x hx
      intro p hp
      obtain ⟨h1, h2⟩ := hts p (List.mem_cons_of_mem _ hp)
      refine ⟨?_, h2⟩
      exact (dfsClos adj univ hs mk ((adj q).map fun w => (q, w))
        (q :: st.1, st.2 ++ [mk n q])).2 p.1 (List.mem_cons_of_mem _ h1)

theorem dfsClos_edges (adj : String → List String) (univ : Finset String)
    (hs : ∀ v, v ∉ univ → adj v = []) (mk : String → String → (String × String)) :
    ∀ (ts : List (String × String)) (st : List String × List (String × String)),
    ∀ p, p ∈ ((dfsClos adj univ hs mk ts st).1).2 ↔
      (p ∈ st.2 ∨ (∃ t ∈ ts, p = mk t.1 t.2) ∨
       (∃ c, c ∈ ((dfsClos adj univ hs mk ts st).1).1 ∧ ¬ c ∈ st.1 ∧
         ∃ w ∈ adj c, p = mk c w)) := by
  intro ts st
  induction ts, st using dfsClos.induct adj univ hs mk with
  | case1 st =>
      intro p
      rw [dfsClos]
      constructor
      · intro h
        exact Or.inl h
      · rintro (h | ⟨t, ht, _⟩ | ⟨c, hc, hcn, _⟩)
        · exact h
        · cases ht
        · exact absurd hc hcn
  | case2 n q ts st hq ih =>
      intro p
      rw [dfsClos]
      simp only [dif_pos hq]
      rw [ih p]
      constructor
      · rintro (hm | ⟨t, ht, rfl⟩ | ⟨c, hc, hcn, w, hw, rfl⟩)
        · rcases List.mem_append.mp hm with hm' | hm'
          · exact Or.inl hm'
          · rcases List.mem_singleton.mp hm' with rfl
            exact Or.inr (Or.inl ⟨(n, q), List.mem_cons_self _ _, rfl⟩)
        · exact Or.inr (Or.inl ⟨t, List.mem_cons_of_mem _ ht, rfl⟩)
        · exact Or.inr (Or.inr ⟨c, hc, hcn, w, hw, rfl⟩)
      · rintro (hm | ⟨t, ht, rfl⟩ | ⟨c, hc, hcn, w, hw, rfl⟩)
        · exact Or.inl (List.mem_append.mpr (Or.inl hm))
        · rcases List.mem_cons.mp ht with rfl | ht'
          · exact Or.inl (List.mem_append.mpr (Or.inr (List.mem_singleton.mpr rfl)))
          · exact Or.inr (Or.inl ⟨t, ht', rfl⟩)
        · exact Or.inr (Or.inr ⟨c, hc, hcn, w, hw, rfl⟩)
  | case3 n q ts st hq r1v ihInner ihCont =>
      intro p
      have hr1 : r1v = dfsClos adj univ hs mk ((adj q).map fun w => (q, w))
          (q :: st.1, st.2 ++ [mk n q]) := rfl
      rw [hr1] at ihCont
      rw [dfsClos]
      simp only [dif_neg hq]
      rw [ihCont p]
      constructor
      · rintro (hm | ⟨t, ht, rfl⟩ | ⟨c, hc, hcn, w, hw, rfl⟩)
        · -- p comes from the inner call's edge list
          rcases (ihInner p).mp hm with hm' | ⟨t, ht, rfl⟩ | ⟨c, hc, hcn, w, hw, rfl⟩
          · rcases List.mem_append.mp hm' with hm'' | hm''
            · exact Or.inl hm''
            · rcases List.mem_singleton.mp hm'' with rfl
              exact Or.inr (Or.inl ⟨(n, q), List.mem_cons_self _ _, rfl⟩)
          · obtain ⟨w, hw, rfl⟩ := List.mem_map.mp ht
            refine Or.inr (Or.inr ⟨q, ?_, hq, w, hw, rfl⟩)
            refine (dfsClos adj univ hs mk ts _).2 q ?_
            exact (dfsClos adj univ hs mk ((adj q).map fun w => (q, w))
              (q :: st.1, st.2 ++ [mk n q])).2 q (List.mem_cons_self _ _)
          · refine Or.inr (Or.inr ⟨c, (dfsClos adj univ hs mk ts _).2 c hc, ?_, w, hw, rfl⟩)
            intro hcs
            exact hcn (List.mem_cons_of_mem _ hcs)
        · exact Or.inr (Or.inl ⟨t, List.mem_cons_of_mem _ ht, rfl⟩)
        · refine Or.inr (Or.inr ⟨c, hc, ?_, w, hw, rfl⟩)
          intro hcs
          exact hcn ((dfsClos adj univ hs mk ((adj q).map fun w => (q, w))
            (q :: st.1, st.2 ++ [mk n q])).2 c (List.mem_cons_of_mem _ hcs))
      · rintro (hm | ⟨t, ht, rfl⟩ | ⟨c, hc, hcn, w, hw, rfl⟩)
        · refine Or.inl ?_
          exact (ihInner p).mpr (Or.inl (List.mem_append.mpr (Or.inl hm)))
        · rcases List.mem_cons.mp ht with rfl | ht'
          · exact Or.inl ((ihInner (mk n q)).mpr
              (Or.inl (List.mem_append.mpr (Or.inr (List.mem_singleton.mpr rfl)))))
          · exact Or.inr (Or.inl ⟨t, ht', rfl⟩)
        · -- c was newly visited: either by the inner call or by the continuation
          by_cases hcr : c ∈ ((dfsClos adj univ hs mk ((adj q).map fun w => (q, w))
              (q :: st.1, st.2 ++ [mk n q])).1).1
          · refine Or.inl ?_
            refine (ihInner (mk c w)).mpr ?_
            by_cases hcq : c = q
            · subst hcq
              exact Or.inr (Or.inl ⟨(c, w), List.mem_map.mpr ⟨w, hw, rfl⟩, rfl⟩)
            · refine Or.inr (Or.inr ⟨c, hcr, ?_, w, hw, rfl⟩)
              intro hm'
              rcases List.mem_cons.mp hm' with h' | h'
              · exact hcq h'
              · exact hcn h'
          · exact Or.inr (Or.inr ⟨c, hc, hcr, w, hw, rfl⟩)

/-! ### Characterisation of `find_ancestors` -/

theorem mem_find_ancestors {edges : List (String × String)} {j x : String} :
    x ∈ (find_ancestors_of edges j).1 ↔ IsAncestor edges j x := by
  rw [find_ancestors_of]
  constructor
  · intro h
    refine dfsClos_sound (find_preds_of_node edges) (nodesOf edges).toFinset
      (predsNilOutside edges) (fun n p => (p, n)) (IsAncestor edges j)
      (fun a b ha hb => Relation.ReflTransGen.tail ha hb)
      _ _ ?_ ?_ x h
    · intro y hy
      rcases List.mem_singleton.mp hy with rfl
      exact Relation.ReflTransGen.refl
    · intro p hp
      obtain ⟨w, hw, rfl⟩ := List.mem_map.mp hp
      exact ⟨List.mem_singleton.mpr rfl, hw⟩
  · intro h
    induction h with
    | refl =>
        exact (dfsClos (find_preds_of_node edges) (nodesOf edges).toFinset
          (predsNilOutside edges) (fun n p => (p, n))
          ((find_preds_of_node edges j).map fun w => (j, w)) ([j], [])).2 j
          (List.mem_singleton.mpr rfl)
    | tail _hab hstep ih =>
        rename_i b c
        rcases dfsClos_closed (find_preds_of_node edges) (nodesOf edges).toFinset
          (predsNilOutside edges) (fun n p => (p, n))
          ((find_preds_of_node edges j).map fun w => (j, w)) ([j], [])
          b ih c hstep with h' | ⟨hbj, hbc⟩
        · exact h'
        · exfalso
          rcases List.mem_singleton.mp hbj with rfl
          exact hbc (List.mem_map.mpr ⟨c, hstep, rfl⟩)

theorem mem_find_ancestors_edges {edges : List (String × String)} {j : String}
    {p : String × String} :
    p ∈ (find_ancestors_of edges j).2 ↔
      p.2 ∈ (find_ancestors_of edges j).1 ∧ p.1 ∈ find_preds_of_node edges p.2 := by
  have hkey := dfsClos_edges (find_preds_of_node edges) (nodesOf edges).toFinset
    (predsNilOutside edges) (fun n p => (p, n))
    ((find_preds_of_node edges j).map fun w => (j, w)) ([j], []) p
  constructor
  · intro h
    have h' := hkey.mp (by rw [find_ancestors_of] at h; exact h)
    rcases h' with hm | ⟨t, ht, rfl⟩ | ⟨c, hc, _hcn, w, hw, rfl⟩
    · cases hm
    · obtain ⟨w, hw, rfl⟩ := List.mem_map.mp ht
      constructor
      · rw [find_ancestors_of]
        exact (dfsClos (find_preds_of_node edges) (nodesOf edges).toFinset
          (predsNilOutside edges) (fun n p => (p, n))
          ((find_preds_of_node edges j).map fun w => (j, w)) ([j], [])).2 j
          (List.mem_singleton.mpr rfl)
      · exact hw
    · exact ⟨by rw [find_ancestors_of]; exact hc, hw⟩
  · rintro ⟨h1, h2⟩
    rw [find_ancestors_of] at h1 ⊢
    refine hkey.mpr ?_
    by_cases hj : p.2 = j
    · refine Or.inr (Or.inl ⟨(j, p.1), List.mem_map.mpr ⟨p.1, by rw [← hj]; exact h2, rfl⟩, ?_⟩)
      rw [← hj]
    · refine Or.inr (Or.inr ⟨p.2, h1, ?_, p.1, h2, rfl⟩)
      intro hm
      exact hj (List.mem_singleton.mp hm)

/-! ### Net-quantity lemmas -/

theorem alookup2_append {β : Type} (k : String × String)
    (l1 l2 : List ((String × String) × β)) :
    alookup2 k (l1 ++ l2) =
      match alookup2 k l1 with
      | some v => some v
      | none => alookup2 k l2 := by
  induction l1 with
  | nil => simp [alookup2]
  | cons p t ih =>
      obtain ⟨a, b⟩ := p
      by_cases hp : a = k
      · simp [alookup2, hp]
      · simp only [List.cons_append, alookup2, if_neg hp]
        exact ih

theorem alookup2_eq_none_of {β : Type} {k : String × String}
    {l : List ((String × String) × β)} (h : ∀ e ∈ l, e.1 ≠ k) :
    alookup2 k l = none := by
  induction l with
  | nil => rfl
  | cons p t ih =>
      obtain ⟨a, b⟩ := p
      simp only [alookup2, if_neg (h (a, b) (List.mem_cons_self _ _))]
      exact ih fun e he => h e (List.mem_cons_of_mem _ he)

theorem foldl_append_singleton {α β : Type} (f : α → β) (l : List α) (net : List β) :
    l.foldl (fun acc p => acc ++ [f p]) net = net ++ l.map f := by
  induction l generalizing net with
  | nil => simp
  | cons a t ih =>
      rw [List.foldl_cons, ih, List.map_cons]
      simp

theorem alookup2_block {β : Type} (a s : String) (filled : List (String × β)) :
    alookup2 (a, s) (filled.map fun p => ((p.1, s), p.2)) = alookup a filled := by
  induction filled with
  | nil => rfl
  | cons p t ih =>
      obtain ⟨x, v⟩ := p
      by_cases hx : x = a
      · simp [alookup2, alookup, hx]
      · have hne : ¬ ((x, s) = (a, s)) := by
          intro h
          exact hx (congrArg Prod.fst h)
        simp only [List.map_cons, alookup2, if_neg hne, alookup, if_neg hx]
        exact ih

theorem lookup_foldl_zero (l : List String) (m : List (String × ℚ)) (x : String) :
    alookup x (l.foldl (fun m an => aupdate an (0 : ℚ) m) m) =
      if x ∈ l then some 0 else alookup x m := by
  induction l generalizing m with
  | nil => simp
  | cons a t ih =>
      rw [List.foldl_cons, ih]
      by_cases hx : x ∈ t
      · rw [if_pos hx, if_pos (List.mem_cons_of_mem _ hx)]
      · rw [if_neg hx]
        by_cases hxa : x = a
        · subst hxa
          rw [if_pos (List.mem_cons_self _ _), alookup_aupdate_self]
        · rw [if_neg fun hm => (List.mem_cons.mp hm).elim hxa hx,
            alookup_aupdate_ne _ _ hxa]

theorem lookup_fill_frame (val : List (String × ℚ) → String → ℚ)
    (L : List String) (m : List (String × ℚ)) (x : String) (hx : x ∉ L) :
    alookup x (L.foldl (fun m i => aupdate i (val m i) m) m) = alookup x m := by
  induction L generalizing m with
  | nil => rfl
  | cons a t ih =>
      rw [List.foldl_cons, ih _ fun h => hx (List.mem_cons_of_mem _ h),
        alookup_aupdate_ne _ _ fun h => hx (by rw [h]; exact List.mem_cons_self _ _)]

theorem lookup_fill_at (val : List (String × ℚ) → String → ℚ)
    (L1 L2 : List String) (x : String) (m : List (String × ℚ)) (hx2 : x ∉ L2) :
    alookup x ((L1 ++ x :: L2).foldl (fun m i => aupdate i (val m i) m) m) =
      some (val (L1.foldl (fun m i => aupdate i (val m i) m) m) x) := by
  rw [List.foldl_append, List.foldl_cons,
    lookup_fill_frame val L2 _ x hx2, alookup_aupdate_self]

theorem comesBefore_append_singleton_elim {A : List String} {s a t : String}
    (h : comesBefore (A ++ [s]) a t) (hts : t ≠ s) : comesBefore A a t := by
  obtain ⟨l1, l2, l3, hdec⟩ := h
  rcases List.eq_nil_or_concat l3 with rfl | ⟨l3', w, rfl⟩
  · exfalso
    have hdec' : A ++ [s] = (l1 ++ a :: l2) ++ [t] := by
      rw [hdec]
    have hlen : A.length = (l1 ++ a :: l2).length := by
      have hl := congrArg List.length hdec'
      simp only [List.length_append, List.length_cons, List.length_nil] at hl ⊢
      omega
    obtain ⟨_, h2⟩ := List.append_inj hdec' hlen
    simp only [List.cons.injEq] at h2
    exact hts h2.1.symm
  · have hdec' : A ++ [s] = (l1 ++ a :: l2 ++ t :: l3') ++ [w] := by
      rw [hdec, List.concat_eq_append]
      simp [List.append_assoc]
    have hlen : A.length = (l1 ++ a :: l2 ++ t :: l3').length := by
      have hl := congrArg List.length hdec'
      simp only [List.length_append, List.length_cons, List.length_nil] at hl ⊢
      omega
    obtain ⟨h1, _⟩ := List.append_inj hdec' hlen
    exact ⟨l1, l2, l3', h1⟩

theorem indexOf_append_left {x : String} (l1 l2 : List String) (hx : x ∈ l1) :
    (l1 ++ l2).indexOf x = l1.indexOf x := by
  induction l1 with
  | nil => cases hx
  | cons a t ih =>
      by_cases hax : a = x
      · subst hax
        simp [List.indexOf_cons_self]
      · rw [List.cons_append, List.indexOf_cons_ne _ hax, List.indexOf_cons_ne _ hax,
          ih ((List.mem_cons.mp hx).resolve_left fun h => hax h.symm)]

theorem anc_closed {edges : List (String × String)} {s x w : String}
    (hx : x ∈ (find_ancestors_of edges s).1) (hw : w ∈ find_preds_of_node edges x) :
    w ∈ (find_ancestors_of edges s).1 := by
  rw [mem_find_ancestors] at hx ⊢
  exact Relation.ReflTransGen.tail hx hw

theorem mem_nodesOf_sub {edges : List (String × String)} {s : String}
    (hs : s ∈ sinksOf edges) :
    ∀ x, x ∈ nodesOf (find_ancestors_of edges s).2 ↔
      x ∈ (find_ancestors_of edges s).1 := by
  intro x
  constructor
  · intro hx
    rcases mem_nodesOf.mp hx with hm | hm
    · obtain ⟨e, he, rfl⟩ := List.mem_map.mp hm
      obtain ⟨hc, hp⟩ := mem_find_ancestors_edges.mp he
      exact anc_closed hc hp
    · obtain ⟨e, he, rfl⟩ := List.mem_map.mp hm
      exact (mem_find_ancestors_edges.mp he).1
  · intro hx
    have hanc : IsAncestor edges s x := mem_find_ancestors.mp hx
    rcases Relation.ReflTransGen.cases_tail hanc with rfl | ⟨c, hc, hstep⟩
    · obtain ⟨e, he, hsnd⟩ := List.mem_map.mp (mem_sinksOf.mp hs).1
      have hmem : (e.1, x) ∈ (find_ancestors_of edges x).2 := by
        rw [mem_find_ancestors_edges]
        refine ⟨mem_find_ancestors.mpr Relation.ReflTransGen.refl, ?_⟩
        rw [mem_find_preds]
        rw [← hsnd]
        simpa using he
      exact mem_nodesOf.mpr (Or.inr (List.mem_map.mpr ⟨(e.1, x), hmem, rfl⟩))
    · have hmem : (x, c) ∈ (find_ancestors_of edges s).2 := by
        rw [mem_find_ancestors_edges]
        exact ⟨mem_find_ancestors.mpr hc, hstep⟩
      exact mem_nodesOf.mpr (Or.inl (List.mem_map.mpr ⟨(x, c), hmem, rfl⟩))

theorem sub_edges_subset {edges : List (String × String)} {s : String}
    {p : String × String} (hp : p ∈ (find_ancestors_of edges s).2) : p ∈ edges := by
  obtain ⟨_, hpred⟩ := mem_find_ancestors_edges.mp hp
  have := mem_find_preds.mp hpred
  rwa [Prod.mk.eta] at this

theorem sub_acyclic {edges : List (String × String)} {s : String}
    (hacy : AcyclicEdges edges) :
    AcyclicEdges (find_ancestors_of edges s).2 := by
  intro x hx
  apply hacy x
  refine Relation.TransGen.mono ?_ hx
  intro a b hab
  have : (a, b) ∈ (find_ancestors_of edges s).2 := mem_find_succs.mp hab
  exact mem_find_succs.mpr (sub_edges_subset this)

theorem topo_last_sink {edges : List (String × String)} {s : String}
    (hacy : AcyclicEdges edges) (hs : s ∈ sinksOf edges) :
    ∃ A, find_topo_sort (find_ancestors_of edges s).2 = A ++ [s] ∧ s ∉ A ∧ A.Nodup := by
  have hsT : s ∈ find_topo_sort (find_ancestors_of edges s).2 := by
    rw [mem_find_topo_sort, mem_nodesOf_sub hs]
    exact mem_find_ancestors.mpr Relation.ReflTransGen.refl
  have hTnd := find_topo_sort_nodup (find_ancestors_of edges s).2
  rcases List.eq_nil_or_concat (find_topo_sort (find_ancestors_of edges s).2)
    with hnil | ⟨A, z, hAz⟩
  · rw [hnil] at hsT
    cases hsT
  · rw [List.concat_eq_append] at hAz
    have hzT : z ∈ find_topo_sort (find_ancestors_of edges s).2 := by
      rw [hAz]
      exact List.mem_append.mpr (Or.inr (List.mem_singleton.mpr rfl))
    have hznd : z ∉ A := by
      rw [hAz] at hTnd
      intro hm
      exact (List.disjoint_of_nodup_append hTnd) hm (List.mem_singleton.mpr rfl)
    have hzs : z = s := by
      by_contra hzs
      have hzanc : z ∈ (find_ancestors_of edges s).1 := by
        rw [← mem_nodesOf_sub hs, ← mem_find_topo_sort]
        exact hzT
      rcases Relation.ReflTransGen.cases_tail (mem_find_ancestors.mp hzanc)
        with rfl | ⟨c, hc, hstep⟩
      · exact hzs rfl
      · have hzc : (z, c) ∈ (find_ancestors_of edges s).2 := by
          rw [mem_find_ancestors_edges]
          exact ⟨mem_find_ancestors.mpr hc, hstep⟩
        have hcb : comesBefore (find_topo_sort (find_ancestors_of edges s).2) z c :=
          find_topo_sort_sorted (sub_acyclic hacy) (z, c) hzc
        have hlt := comesBefore_indexOf_lt hcb hTnd
        rw [hAz] at hlt
        have hidxz : (A ++ [z]).indexOf z = A.length :=
          indexOf_append_cons_self A [] hznd
        have hidxc : (A ++ [z]).indexOf c < A.length + 1 := by
          have hcm : c ∈ A ++ [z] := by
            rw [← hAz, mem_find_topo_sort, mem_nodesOf_sub hs]
            exact mem_find_ancestors.mpr hc
          have hlen := List.indexOf_lt_length.mpr hcm
          simpa using hlen
        omega
    subst hzs
    exact ⟨A, hAz, hznd, by rw [hAz] at hTnd; exact hTnd.of_append_left⟩

theorem comesBefore_reverse {A : List String} {a t : String}
    (h : comesBefore A a t) : comesBefore A.reverse t a := by
  obtain ⟨p1, p2, p3, hdec⟩ := h
  rw [hdec]
  exact reverse_comesBefore

theorem sinkFilled_spec (edges : List (String × String)) (q : String × String → ℚ)
    {s : String} (hacy : AcyclicEdges edges) (hs : s ∈ sinksOf edges) :
    alookup s (sinkFilled edges q s) = some 1 ∧
    ∀ a ∈ (find_ancestors_of edges s).1, a ≠ s →
      alookup a (sinkFilled edges q s) =
        some (((find_succs_of_node (find_ancestors_of edges s).2 a).map fun t =>
          q (a, t) * (alookup t (sinkFilled edges q s)).getD 0).sum) := by
  obtain ⟨A, hT, hsA, hAnd⟩ := topo_last_sink hacy hs
  have hL : ((find_topo_sort (find_ancestors_of edges s).2).reverse).drop 1
      = A.reverse := by
    rw [hT, List.reverse_append, List.reverse_singleton]
    rfl
  have hsrev : s ∉ A.reverse := fun hm => hsA (List.mem_reverse.mp hm)
  have hrevnd : A.reverse.Nodup := List.nodup_reverse.mpr hAnd
  constructor
  · simp only [sinkFilled]
    rw [hL]
    rw [lookup_fill_frame
      (fun m i => (((find_succs_of_node (find_ancestors_of edges s).2) i).map
        fun t => q (i, t) * (alookup t m).getD 0).sum) A.reverse _ s hsrev]
    exact alookup_aupdate_self _ _ _
  · intro a ha has
    have haT : a ∈ A := by
      have haF : a ∈ find_topo_sort (find_ancestors_of edges s).2 := by
        rw [mem_find_topo_sort, mem_nodesOf_sub hs]
        exact ha
      rw [hT] at haF
      rcases List.mem_append.mp haF with h | h
      · exact h
      · exact absurd (List.mem_singleton.mp h) has
    have haL : a ∈ A.reverse := List.mem_reverse.mpr haT
    obtain ⟨L1, L2, hLdec⟩ := List.append_of_mem haL
    have haL2 : a ∉ L2 := by
      rw [hLdec] at hrevnd
      exact (List.nodup_cons.mp hrevnd.of_append_right).1
    have hrevnd' : A.reverse.Nodup := List.nodup_reverse.mpr hAnd
    simp only [sinkFilled]
    rw [hL, hLdec]
    rw [lookup_fill_at
      (fun m i => (((find_succs_of_node (find_ancestors_of edges s).2) i).map
        fun t => q (i, t) * (alookup t m).getD 0).sum) L1 L2 a _ haL2]
    congr 1
    congr 1
    refine List.map_congr_left ?_
    intro t ht
    have hta : t ≠ a := by
      intro h
      subst h
      exact hacy t (Relation.TransGen.single
        (mem_find_succs.mpr (sub_edges_subset (mem_find_succs.mp ht))))
    have htL2 : t ∉ L2 := by
      by_cases hts : t = s
      · subst hts
        intro hm
        exact hsrev (by
          rw [hLdec]
          exact List.mem_append.mpr (Or.inr (List.mem_cons_of_mem _ hm)))
      · intro hm
        have hsub_edge : (a, t) ∈ (find_ancestors_of edges s).2 :=
          mem_find_succs.mp ht
        have hcbT : comesBefore (find_topo_sort (find_ancestors_of edges s).2) a t :=
          find_topo_sort_sorted (sub_acyclic hacy) (a, t) hsub_edge
        rw [hT] at hcbT
        have hcbA : comesBefore A a t := comesBefore_append_singleton_elim hcbT hts
        have hrev1 : comesBefore A.reverse t a := comesBefore_reverse hcbA
        obtain ⟨P, Q, hPQ⟩ := List.append_of_mem hm
        have hrev2 : comesBefore A.reverse a t := by
          rw [hLdec, hPQ]
          exact ⟨L1, P, Q, by simp [List.append_assoc]⟩
        have h1 := comesBefore_indexOf_lt hrev1 hrevnd'
        have h2 := comesBefore_indexOf_lt hrev2 hrevnd'
        omega
    have heq : alookup t ((L1 ++ a :: L2).foldl
        (fun m i => aupdate i (((find_succs_of_node (find_ancestors_of edges s).2 i).map
          fun t => q (i, t) * (alookup t m).getD 0).sum) m)
        (aupdate s 1 ((find_ancestors_of edges s).1.foldl
          (fun m an => aupdate an 0 m) []))) =
        alookup t (L1.foldl
        (fun m i => aupdate i (((find_succs_of_node (find_ancestors_of edges s).2 i).map
          fun t => q (i, t) * (alookup t m).getD 0).sum) m)
        (aupdate s 1 ((find_ancestors_of edges s).1.foldl
          (fun m an => aupdate an 0 m) []))) := by
      rw [List.foldl_append]
      refine lookup_fill_frame
        (fun m i => (((find_succs_of_node (find_ancestors_of edges s).2) i).map
          fun t => q (i, t) * (alookup t m).getD 0).sum) (a :: L2) _ t ?_
      intro hm
      rcases List.mem_cons.mp hm with h | h
      · exact hta h
      · exact htL2 h
    rw [heq]

theorem netqty_fold_frame (edges : List (String × String)) (q : String × String → ℚ) :
    ∀ (t : List String) (acc : List ((String × String) × ℚ)) (a s : String), s ∉ t →
    alookup2 (a, s) (t.foldl (fun net n_id => (sinkFilled edges q n_id).foldl
      (fun acc2 p => acc2 ++ [((p.1, n_id), p.2)]) net) acc) = alookup2 (a, s) acc := by
  intro t
  induction t with
  | nil => intro acc a s _; rfl
  | cons h t ih =>
      intro acc a s hsn
      rw [List.foldl_cons, ih _ a s fun hm => hsn (List.mem_cons_of_mem _ hm)]
      rw [foldl_append_singleton (fun p : String × ℚ => ((p.1, h), p.2))]
      have hblock : alookup2 (a, s)
          ((sinkFilled edges q h).map fun p => ((p.1, h), p.2)) = none := by
        apply alookup2_eq_none_of
        intro e he hk
        obtain ⟨p, _hp, rfl⟩ := List.mem_map.mp he
        apply hsn
        have hhs : h = s := congrArg Prod.snd hk
        rw [hhs]
        exact List.mem_cons_self _ _
      rw [alookup2_append]
      cases hacc : alookup2 (a, s) acc with
      | none => simp [hblock]
      | some v => simp

theorem netqty_fold_lookup (edges : List (String × String)) (q : String × String → ℚ) :
    ∀ (l : List String) (acc : List ((String × String) × ℚ)) (s a : String),
      l.Nodup → s ∈ l → (∀ e ∈ acc, ¬ e.1.2 = s) →
      alookup2 (a, s) (l.foldl (fun net n_id => (sinkFilled edges q n_id).foldl
        (fun acc2 p => acc2 ++ [((p.1, n_id), p.2)]) net) acc) =
      alookup a (sinkFilled edges q s) := by
  intro l
  induction l with
  | nil => intro acc s a _ hsl; cases hsl
  | cons h t ih =>
      intro acc s a hnd hsl hacc
      rw [List.foldl_cons, foldl_append_singleton (fun p : String × ℚ => ((p.1, h), p.2))]
      by_cases hsh : s = h
      · subst hsh
        have hst : s ∉ t := (List.nodup_cons.mp hnd).1
        rw [netqty_fold_frame edges q t _ a s hst]
        have haccnone : alookup2 (a, s) acc = none :=
          alookup2_eq_none_of fun e he hk => hacc e he (congrArg Prod.snd hk)
        rw [alookup2_append, haccnone]
        exact alookup2_block a s _
      · have hst : s ∈ t := (List.mem_cons.mp hsl).resolve_left fun h' => hsh h'
        refine ih _ s a (List.nodup_cons.mp hnd).2 hst ?_
        intro e he
        rcases List.mem_append.mp he with h' | h'
        · exact hacc e h'
        · obtain ⟨p, _hp, rfl⟩ := List.mem_map.mp h'
          intro hk
          exact hsh hk.symm

theorem cal_net_qty_lookup (edges : List (String × String)) (q : String × String → ℚ)
    {s : String} (hs : s ∈ sinksOf edges) (a : String) :
    alookup2 (a, s) (cal_net_qty edges q) = alookup a (sinkFilled edges q s) := by
  rw [cal_net_qty]
  exact netqty_fold_lookup edges q (sinksOf edges) [] s a (List.nodup_dedup _) hs
    fun e he => absurd he (List.not_mem_nil _)

/-! ### Cumulative-lead-time lemmas -/

theorem lookup_const_map {β : Type} (x : String) (v : β) (l : List String) :
    alookup x (l.map fun j => (j, v)) = if x ∈ l then some v else none := by
  induction l with
  | nil => simp [alookup]
  | cons a t ih =>
      by_cases hax : a = x
      · subst hax
        simp [alookup]
      · simp only [List.map_cons, alookup, if_neg hax, ih]
        by_cases hx : x ∈ t
        · rw [if_pos hx, if_pos (List.mem_cons_of_mem _ hx)]
        · rw [if_neg hx, if_neg fun hm => (List.mem_cons.mp hm).elim (fun h => hax h.symm) hx]

theorem indexOf_append_of_notMem {x : String} (l1 l2 : List String) (hx : x ∉ l1) :
    (l1 ++ l2).indexOf x = l1.length + l2.indexOf x := by
  induction l1 with
  | nil => simp
  | cons a t ih =>
      have hax : a ≠ x := fun h => hx (h ▸ List.mem_cons_self a t)
      rw [List.cons_append, List.indexOf_cons_ne _ hax,
        ih fun h => hx (List.mem_cons_of_mem _ h), List.length_cons]
      omega

theorem mem_left_of_comesBefore {topo l1 l2 : List String} {p n : String}
    (hnd : topo.Nodup) (hdec : topo = l1 ++ n :: l2)
    (hcb : comesBefore topo p n) : p ∈ l1 := by
  have hpn : p ≠ n := by
    intro h
    subst h
    have := comesBefore_indexOf_lt hcb hnd
    omega
  have hlt := comesBefore_indexOf_lt hcb hnd
  have hnl1 : n ∉ l1 := by
    rw [hdec] at hnd
    intro hm
    exact (List.disjoint_of_nodup_append hnd) hm (List.mem_cons_self _ _)
  have hidxn : topo.indexOf n = l1.length := by
    rw [hdec]
    exact indexOf_append_cons_self l1 l2 hnl1
  by_contra hp1
  have hidxp : topo.indexOf p = l1.length + 1 + l2.indexOf p := by
    rw [hdec, indexOf_append_of_notMem l1 (n :: l2) hp1,
      List.indexOf_cons_ne _ fun h => hpn h.symm]
    omega
  omega

theorem maxFold_general (f : String → WithBot ℚ) :
    ∀ (l : List String) (c0 : WithBot ℚ) (L0 : List String),
    c0 ≤ (l.foldl (fun cl p =>
        if cl.1 < f p then (f p, [p])
        else if cl.1 = f p then (cl.1, cl.2 ++ [p]) else cl) (c0, L0)).1 ∧
    (∀ p ∈ l, f p ≤ (l.foldl (fun cl p =>
        if cl.1 < f p then (f p, [p])
        else if cl.1 = f p then (cl.1, cl.2 ++ [p]) else cl) (c0, L0)).1) ∧
    ((l.foldl (fun cl p =>
        if cl.1 < f p then (f p, [p])
        else if cl.1 = f p then (cl.1, cl.2 ++ [p]) else cl) (c0, L0)).1 = c0 ∨
      ∃ p ∈ l, (l.foldl (fun cl p =>
        if cl.1 < f p then (f p, [p])
        else if cl.1 = f p then (cl.1, cl.2 ++ [p]) else cl) (c0, L0)).1 = f p) ∧
    (∀ x, x ∈ (l.foldl (fun cl p =>
        if cl.1 < f p then (f p, [p])
        else if cl.1 = f p then (cl.1, cl.2 ++ [p]) else cl) (c0, L0)).2 ↔
      ((c0 = (l.foldl (fun cl p =>
        if cl.1 < f p then (f p, [p])
        else if cl.1 = f p then (cl.1, cl.2 ++ [p]) else cl) (c0, L0)).1 ∧ x ∈ L0) ∨
       (x ∈ l ∧ f x = (l.foldl (fun cl p =>
        if cl.1 < f p then (f p, [p])
        else if cl.1 = f p then (cl.1, cl.2 ++ [p]) else cl) (c0, L0)).1))) := by
  intro l
  induction l with
  | nil =>
      intro c0 L0
      refine ⟨le_refl _, ?_, Or.inl rfl, ?_⟩
      · intro p hp
        cases hp
      · intro x
        simp
  | cons a t ih =>
      intro c0 L0
      rw [List.foldl_cons]
      rcases lt_trichotomy c0 (f a) with hlt | heq | hgt
      · rw [if_pos hlt]
        obtain ⟨i1, i2, i3, i4⟩ := ih (f a) [a]
        refine ⟨le_of_lt (lt_of_lt_of_le hlt i1), ?_, ?_, ?_⟩
        · intro p hp
          rcases List.mem_cons.mp hp with rfl | hp'
          · exact i1
          · exact i2 p hp'
        · rcases i3 with h | ⟨p, hp, h⟩
          · exact Or.inr ⟨a, List.mem_cons_self _ _, h⟩
          · exact Or.inr ⟨p, List.mem_cons_of_mem _ hp, h⟩
        · intro x
          rw [i4 x]
          constructor
          · rintro (⟨h1, h2⟩ | ⟨h1, h2⟩)
            · rcases List.mem_singleton.mp h2 with rfl
              exact Or.inr ⟨List.mem_cons_self _ _, h1⟩
            · exact Or.inr ⟨List.mem_cons_of_mem _ h1, h2⟩
          · rintro (⟨h1, h2⟩ | ⟨h1, h2⟩)
            · exfalso
              have hle := i1
              rw [← h1] at hle
              exact absurd (lt_of_lt_of_le hlt hle) (lt_irrefl _)
            · rcases List.mem_cons.mp h1 with rfl | h1'
              · exact Or.inl ⟨h2, List.mem_singleton.mpr rfl⟩
              · exact Or.inr ⟨h1', h2⟩
      · rw [if_neg (by rw [heq]; exact lt_irrefl _), if_pos heq]
        obtain ⟨i1, i2, i3, i4⟩ := ih c0 (L0 ++ [a])
        refine ⟨i1, ?_, ?_, ?_⟩
        · intro p hp
          rcases List.mem_cons.mp hp with rfl | hp'
          · rw [← heq]
            exact i1
          · exact i2 p hp'
        · rcases i3 with h | ⟨p, hp, h⟩
          · exact Or.inl h
          · exact Or.inr ⟨p, List.mem_cons_of_mem _ hp, h⟩
        · intro x
          rw [i4 x]
          constructor
          · rintro (⟨h1, h2⟩ | ⟨h1, h2⟩)
            · rcases List.mem_append.mp h2 with h2' | h2'
              · exact Or.inl ⟨h1, h2'⟩
              · rcases List.mem_singleton.mp h2' with rfl
                refine Or.inr ⟨List.mem_cons_self _ _, ?_⟩
                rw [← heq]
                exact h1
            · exact Or.inr ⟨List.mem_cons_of_mem _ h1, h2⟩
          · rintro (⟨h1, h2⟩ | ⟨h1, h2⟩)
            · exact Or.inl ⟨h1, List.mem_append.mpr (Or.inl h2)⟩
            · rcases List.mem_cons.mp h1 with rfl | h1'
              · exact Or.inl ⟨heq.trans h2, List.mem_append.mpr
                  (Or.inr (List.mem_singleton.mpr rfl))⟩
              · exact Or.inr ⟨h1', h2⟩
      · rw [if_neg (by exact not_lt_of_gt hgt), if_neg (by exact fun h => absurd h.symm (ne_of_lt hgt))]
        obtain ⟨i1, i2, i3, i4⟩ := ih c0 L0
        refine ⟨i1, ?_, ?_, ?_⟩
        · intro p hp
          rcases List.mem_cons.mp hp with rfl | hp'
          · exact le_trans (le_of_lt hgt) i1
          · exact i2 p hp'
        · rcases i3 with h | ⟨p, hp, h⟩
          · exact Or.inl h
          · exact Or.inr ⟨p, List.mem_cons_of_mem _ hp, h⟩
        · intro x
          rw [i4 x]
          constructor
          · rintro (⟨h1, h2⟩ | ⟨h1, h2⟩)
            · exact Or.inl ⟨h1, h2⟩
            · exact Or.inr ⟨List.mem_cons_of_mem _ h1, h2⟩
          · rintro (⟨h1, h2⟩ | ⟨h1, h2⟩)
            · exact Or.inl ⟨h1, h2⟩
            · rcases List.mem_cons.mp h1 with rfl | h1'
              · exfalso
                rw [h2] at hgt
                exact absurd (lt_of_lt_of_le hgt i1) (lt_irrefl _)
              · exact Or.inr ⟨h1', h2⟩

theorem foldl_max_spec {α : Type} [LinearOrder α] :
    ∀ (ts : List α) (t : α),
    (∀ x ∈ t :: ts, x ≤ ts.foldl max t) ∧ ts.foldl max t ∈ t :: ts := by
  intro ts
  induction ts with
  | nil =>
      intro t
      refine ⟨?_, List.mem_cons_self _ _⟩
      intro x hx
      rcases List.mem_singleton.mp hx with rfl
      exact le_refl _
  | cons b tb ih =>
      intro t
      rw [List.foldl_cons]
      obtain ⟨i1, i2⟩ := ih (max t b)
      constructor
      · intro x hx
        rcases List.mem_cons.mp hx with rfl | hx'
        · exact le_trans (le_max_left _ b) (i1 _ (List.mem_cons_self _ _))
        · rcases List.mem_cons.mp hx' with rfl | hx''
          · exact le_trans (le_max_right t _) (i1 _ (List.mem_cons_self _ _))
          · exact i1 x (List.mem_cons_of_mem _ hx'')
      · rcases List.mem_cons.mp i2 with hm | hm
        · rcases max_choice t b with hc | hc
          · rw [hm, hc]
            exact List.mem_cons_self _ _
          · rw [hm, hc]
            exact List.mem_cons_of_mem _ (List.mem_cons_self _ _)
        · exact List.mem_cons_of_mem _ (List.mem_cons_of_mem _ hm)

theorem foldl_min_spec {α : Type} [LinearOrder α] :
    ∀ (ts : List α) (t : α),
    (∀ x ∈ t :: ts, ts.foldl min t ≤ x) ∧ ts.foldl min t ∈ t :: ts := by
  intro ts
  induction ts with
  | nil =>
      intro t
      refine ⟨?_, List.mem_cons_self _ _⟩
      intro x hx
      rcases List.mem_singleton.mp hx with rfl
      exact le_refl _
  | cons b tb ih =>
      intro t
      rw [List.foldl_cons]
      obtain ⟨i1, i2⟩ := ih (min t b)
      constructor
      · intro x hx
        rcases List.mem_cons.mp hx with rfl | hx'
        · exact le_trans (i1 _ (List.mem_cons_self _ _)) (min_le_left _ b)
        · rcases List.mem_cons.mp hx' with rfl | hx''
          · exact le_trans (i1 _ (List.mem_cons_self _ _)) (min_le_right t _)
          · exact i1 x (List.mem_cons_of_mem _ hx'')
      · rcases List.mem_cons.mp i2 with hm | hm
        · rcases min_choice t b with hc | hc
          · rw [hm, hc]
            exact List.mem_cons_self _ _
          · rw [hm, hc]
            exact List.mem_cons_of_mem _ (List.mem_cons_self _ _)
        · exact List.mem_cons_of_mem _ (List.mem_cons_of_mem _ hm)

theorem cumStep_frame {g : MaterialGraphState} {edges : List (String × String)}
    {preds : String → List String} {n : String}
    {st st' : List (String × WithBot ℚ) × List (String × List String)}
    (h : cumStep g edges preds n st = some st') :
    ∀ x, x ≠ n → alookup x st'.1 = alookup x st.1 ∧ alookup x st'.2 = alookup x st.2 := by
  intro x hx
  simp only [cumStep, Option.bind_eq_some] at h
  obtain ⟨node, _hnode, h⟩ := h
  by_cases htype : node.node_type ≠ "ALTER_MATERIAL"
  · rw [if_pos htype, Option.some_inj] at h
    rw [← h]
    exact ⟨alookup_aupdate_ne _ _ hx, alookup_aupdate_ne _ _ hx⟩
  · rw [if_neg htype, Option.map_eq_some'] at h
    obtain ⟨c, _hc, h⟩ := h
    rw [← h]
    exact ⟨alookup_aupdate_ne _ _ hx, alookup_aupdate_ne _ _ hx⟩

theorem cumStep_succeeds {g : MaterialGraphState} {edges : List (String × String)}
    {preds : String → List String} {n : String} {node : MaterialNodeState}
    (h1 : alookup n g.nodes_pool = some node)
    (h2 : node.node_type = "ALTER_MATERIAL" → incomingActiveInfo g edges n ≠ []) :
    ∀ st, ∃ st', cumStep g edges preds n st = some st' := by
  intro st
  simp only [cumStep, h1, Option.some_bind]
  by_cases htype : node.node_type ≠ "ALTER_MATERIAL"
  · rw [if_pos htype]
    exact ⟨_, rfl⟩
  · rw [if_neg htype]
    rw [not_not] at htype
    have hne := h2 htype
    have htmp : (incomingActiveInfo g edges n).map
        (fun pr => (pr.1, pr.2, (alookup pr.1 st.1).getD ⊥ +
          ((node.lt : ℚ) : WithBot ℚ))) ≠ [] := by
      intro hmap
      exact hne (List.map_eq_nil_iff.mp hmap)
    rw [altCum]
    by_cases hexp : node.alter_time_mode = "EXP"
    · rw [if_pos hexp]
      exact ⟨_, rfl⟩
    · rw [if_neg hexp]
      by_cases hmax : node.alter_time_mode = "MAX"
      · rw [if_pos hmax]
        cases hm : (incomingActiveInfo g edges n).map
            (fun pr => (pr.1, pr.2, (alookup pr.1 st.1).getD ⊥ +
              ((node.lt : ℚ) : WithBot ℚ))) with
        | nil => exact absurd hm htmp
        | cons a l => simp [hm]
      · rw [if_neg hmax]
        by_cases hmin : node.alter_time_mode = "MIN"
        · rw [if_pos hmin]
          cases hm : (incomingActiveInfo g edges n).map
              (fun pr => (pr.1, pr.2, (alookup pr.1 st.1).getD ⊥ +
                ((node.lt : ℚ) : WithBot ℚ))) with
          | nil => exact absurd hm htmp
          | cons a l => simp [hm]
        · rw [if_neg hmin]
          exact ⟨_, rfl⟩

theorem cum_foldlM_frame {g : MaterialGraphState} {edges : List (String × String)}
    {preds : String → List String} :
    ∀ (l : List String) (st stf : List (String × WithBot ℚ) × List (String × List String)),
    l.foldlM (fun st n => cumStep g edges preds n st) st = some stf →
    ∀ x, x ∉ l → alookup x stf.1 = alookup x st.1 ∧ alookup x stf.2 = alookup x st.2 := by
  intro l
  induction l with
  | nil =>
      intro st stf h x _
      simp only [List.foldlM_nil, Option.pure_def, Option.some_inj] at h
      rw [h]
      exact ⟨rfl, rfl⟩
  | cons a t ih =>
      intro st stf h x hx
      rw [List.foldlM_cons] at h
      cases hstep : cumStep g edges preds a st with
      | none =>
          rw [hstep] at h
          exact Option.noConfusion h
      | some st1 =>
          rw [hstep] at h
          obtain ⟨f1, f2⟩ := ih st1 stf h x fun hm => hx (List.mem_cons_of_mem _ hm)
          obtain ⟨g1, g2⟩ := cumStep_frame hstep x
            fun he => hx (he ▸ List.mem_cons_self _ _)
          exact ⟨f1.trans g1, f2.trans g2⟩

theorem cum_foldlM_succeeds {g : MaterialGraphState} {edges : List (String × String)}
    {preds : String → List String} :
    ∀ (l : List String),
    (∀ n ∈ l, ∃ node, alookup n g.nodes_pool = some node ∧
      (node.node_type = "ALTER_MATERIAL" → incomingActiveInfo g edges n ≠ [])) →
    ∀ st, ∃ stf, l.foldlM (fun st n => cumStep g edges preds n st) st = some stf := by
  intro l
  induction l with
  | nil =>
      intro _ st
      exact ⟨st, rfl⟩
  | cons a t ih =>
      intro hall st
      obtain ⟨node, h1, h2⟩ := hall a (List.mem_cons_self _ _)
      obtain ⟨st1, hst1⟩ := cumStep_succeeds h1 h2 st
      obtain ⟨stf, hstf⟩ := ih (fun n hn => hall n (List.mem_cons_of_mem _ hn)) st1
      refine ⟨stf, ?_⟩
      rw [List.foldlM_cons, hst1]
      exact hstf

theorem cumStep_value_nonalter {g : MaterialGraphState} {edges : List (String × String)}
    {preds : String → List String} {n : String} {node : MaterialNodeState}
    {st st' : List (String × WithBot ℚ) × List (String × List String)}
    (h1 : alookup n g.nodes_pool = some node)
    (htype : node.node_type ≠ "ALTER_MATERIAL")
    (h : cumStep g edges preds n st = some st') :
    alookup n st'.1 = some ((preds n).foldl
      (fun cl p =>
        if cl.1 < (alookup p st.1).getD ⊥ + ((node.lt : ℚ) : WithBot ℚ) then
          ((alookup p st.1).getD ⊥ + ((node.lt : ℚ) : WithBot ℚ), [p])
        else if cl.1 = (alookup p st.1).getD ⊥ + ((node.lt : ℚ) : WithBot ℚ) then
          (cl.1, cl.2 ++ [p]) else cl)
      ((alookup n st.1).getD ⊥, (alookup n st.2).getD [])).1 ∧
    alookup n st'.2 = some ((preds n).foldl
      (fun cl p =>
        if cl.1 < (alookup p st.1).getD ⊥ + ((node.lt : ℚ) : WithBot ℚ) then
          ((alookup p st.1).getD ⊥ + ((node.lt : ℚ) : WithBot ℚ), [p])
        else if cl.1 = (alookup p st.1).getD ⊥ + ((node.lt : ℚ) : WithBot ℚ) then
          (cl.1, cl.2 ++ [p]) else cl)
      ((alookup n st.1).getD ⊥, (alookup n st.2).getD [])).2 := by
  simp only [cumStep, h1, Option.some_bind, if_pos htype, Option.some_inj] at h
  rw [← h]
  exact ⟨alookup_aupdate_self _ _ _, alookup_aupdate_self _ _ _⟩

theorem cumStep_value_alter {g : MaterialGraphState} {edges : List (String × String)}
    {preds : String → List String} {n : String} {node : MaterialNodeState}
    {st st' : List (String × WithBot ℚ) × List (String × List String)}
    (h1 : alookup n g.nodes_pool = some node)
    (htype : node.node_type = "ALTER_MATERIAL")
    (h : cumStep g edges preds n st = some st') :
    ∃ c, altCum node ((alookup n st.1).getD ⊥)
        ((incomingActiveInfo g edges n).map fun pr =>
          (pr.1, pr.2, (alookup pr.1 st.1).getD ⊥ + ((node.lt : ℚ) : WithBot ℚ)))
      = some c ∧
      alookup n st'.1 = some c ∧
      alookup n st'.2 = some ((((incomingActiveInfo g edges n).map fun pr =>
        (pr.1, pr.2, (alookup pr.1 st.1).getD ⊥ + ((node.lt : ℚ) : WithBot ℚ))).filter
          fun x => decide (x.2.2 = c)).map Prod.fst) := by
  simp only [cumStep, h1, Option.some_bind, if_neg (not_not_intro htype),
    Option.map_eq_some'] at h
  obtain ⟨c, hc, hpair⟩ := h
  refine ⟨c, hc, ?_, ?_⟩
  · rw [← hpair]
    exact alookup_aupdate_self _ _ _
  · rw [← hpair]
    exact alookup_aupdate_self _ _ _

theorem cum_value_at {g : MaterialGraphState} {edges : List (String × String)}
    {preds : String → List String} {l1 l2 : List String} {n : String}
    {st0 stf : List (String × WithBot ℚ) × List (String × List String)}
    (hn2 : n ∉ l2)
    (h : (l1 ++ n :: l2).foldlM (fun st m => cumStep g edges preds m st) st0 = some stf) :
    ∃ stmid st1, l1.foldlM (fun st m => cumStep g edges preds m st) st0 = some stmid ∧
      cumStep g edges preds n stmid = some st1 ∧
      alookup n stf.1 = alookup n st1.1 ∧ alookup n stf.2 = alookup n st1.2 ∧
      (∀ x, x ∉ n :: l2 →
        alookup x stf.1 = alookup x stmid.1 ∧ alookup x stf.2 = alookup x stmid.2) := by
  rw [List.foldlM_append] at h
  cases hmid : l1.foldlM (fun st m => cumStep g edges preds m st) st0 with
  | none =>
      rw [hmid] at h
      exact Option.noConfusion h
  | some stmid =>
      rw [hmid] at h
      have h' : (n :: l2).foldlM (fun st m => cumStep g edges preds m st) stmid
          = some stf := h
      rw [List.foldlM_cons] at h'
      cases hstep : cumStep g edges preds n stmid with
      | none =>
          rw [hstep] at h'
          exact Option.noConfusion h'
      | some st1 =>
          rw [hstep] at h'
          have h'' : l2.foldlM (fun st m => cumStep g edges preds m st) st1
              = some stf := h'
          obtain ⟨f1, f2⟩ := cum_foldlM_frame l2 st1 stf h'' n hn2
          refine ⟨stmid, st1, rfl, hstep, f1, f2, ?_⟩
          intro x hx
          obtain ⟨f1', f2'⟩ := cum_foldlM_frame l2 st1 stf h'' x
            fun hm => hx (List.mem_cons_of_mem _ hm)
          obtain ⟨g1, g2⟩ := cumStep_frame hstep x
            fun he => hx (by rw [he]; exact List.mem_cons_self _ _)
          exact ⟨f1'.trans g1, f2'.trans g2⟩

theorem incomingActive_sub {g : MaterialGraphState} {edges : List (String × String)}
    {j : String} {pr : String × ℚ} (h : pr ∈ incomingActiveInfo g edges j) :
    pr.1 ∈ find_preds_of_node edges j := by
  rw [incomingActiveInfo] at h
  obtain ⟨p, hp, hf⟩ := List.mem_filterMap.mp h
  cases he : alookup2 (p, j) g.edges_pool with
  | none =>
      rw [he] at hf
      exact Option.noConfusion hf
  | some e =>
      rw [he] at hf
      have hf' : (if 0 < e.decision_ratio then some (p, e.decision_ratio) else none)
          = some pr := hf
      by_cases hr : 0 < e.decision_ratio
      · rw [if_pos hr, Option.some_inj] at hf'
        rw [← hf']
        exact hp
      · rw [if_neg hr] at hf'
        exact Option.noConfusion hf'

theorem mapM_res_succeeds {stf : List (String × WithBot ℚ) × List (String × List String)} :
    ∀ (pool : List (String × MaterialNodeState)),
    (∀ jn ∈ pool, ∃ c, alookup jn.1 (aremove "start" stf.1) = some c ∧
      ∃ L, alookup jn.1 stf.2 = some L) →
    ∃ res, pool.mapM (fun jn =>
      (alookup jn.1 (aremove "start" stf.1)).bind fun c =>
        (alookup jn.1 stf.2).map fun L => (jn.1, (c, L))) = some res := by
  intro pool
  induction pool with
  | nil =>
      intro _
      exact ⟨[], rfl⟩
  | cons jn t ih =>
      intro hall
      obtain ⟨c, hc, L, hL⟩ := hall jn (List.mem_cons_self _ _)
      obtain ⟨res', hres'⟩ := ih fun x hx => hall x (List.mem_cons_of_mem _ hx)
      refine ⟨(jn.1, (c, L)) :: res', ?_⟩
      rw [List.mapM_cons, hc]
      simp only [Option.some_bind, hL, Option.map_some', hres']
      rfl

theorem mapM_res_lookup {stf : List (String × WithBot ℚ) × List (String × List String)} :
    ∀ (pool : List (String × MaterialNodeState))
      (res : List (String × (WithBot ℚ × List String))),
    pool.mapM (fun jn =>
      (alookup jn.1 (aremove "start" stf.1)).bind fun c =>
        (alookup jn.1 stf.2).map fun L => (jn.1, (c, L))) = some res →
    ∀ j node, alookup j pool = some node →
      ∃ c L, alookup j (aremove "start" stf.1) = some c ∧ alookup j stf.2 = some L ∧
        alookup j res = some (c, L) := by
  intro pool
  induction pool with
  | nil =>
      intro res _ j node hj
      exact Option.noConfusion hj
  | cons jn t ih =>
      intro res h j node hj
      rw [List.mapM_cons] at h
      cases hc : alookup jn.1 (aremove "start" stf.1) with
      | none =>
          rw [hc] at h
          exact Option.noConfusion h
      | some c0 =>
          rw [hc] at h
          simp only [Option.some_bind] at h
          cases hL : alookup jn.1 stf.2 with
          | none =>
              rw [hL] at h
              exact Option.noConfusion h
          | some L0 =>
              rw [hL] at h
              simp only [Option.map_some', Option.some_bind] at h
              cases hrest : t.mapM (fun jn =>
                  (alookup jn.1 (aremove "start" stf.1)).bind fun c =>
                    (alookup jn.1 stf.2).map fun L => (jn.1, (c, L))) with
              | none =>
                  rw [hrest] at h
                  exact Option.noConfusion h
              | some res' =>
                  rw [hrest] at h
                  have h2 : ((jn.1, (c0, L0)) :: res' :
                      List (String × (WithBot ℚ × List String))) = res :=
                    Option.some_inj.mp h
                  obtain ⟨a, b⟩ := jn
                  by_cases hja : a = j
                  · subst hja
                    simp only [alookup, if_pos rfl, Option.some_inj] at hj
                    refine ⟨c0, L0, hc, hL, ?_⟩
                    rw [← h2]
                    simp [alookup]
                  · simp only [alookup, if_neg hja] at hj
                    obtain ⟨c, L, hc', hL', hres⟩ := ih res' hrest j node hj
                    refine ⟨c, L, hc', hL', ?_⟩
                    rw [← h2]
                    simp only [alookup, if_neg hja]
                    exact hres

theorem cumStep_self_some {g : MaterialGraphState} {edges : List (String × String)}
    {preds : String → List String} {n : String}
    {st st' : List (String × WithBot ℚ) × List (String × List String)}
    (h : cumStep g edges preds n st = some st') :
    (∃ c, alookup n st'.1 = some c) ∧ ∃ L, alookup n st'.2 = some L := by
  simp only [cumStep, Option.bind_eq_some] at h
  obtain ⟨node, _hnode, h⟩ := h
  by_cases htype : node.node_type ≠ "ALTER_MATERIAL"
  · rw [if_pos htype, Option.some_inj] at h
    rw [← h]
    exact ⟨⟨_, alookup_aupdate_self _ _ _⟩, ⟨_, alookup_aupdate_self _ _ _⟩⟩
  · rw [if_neg htype, Option.map_eq_some'] at h
    obtain ⟨c, _hc, h⟩ := h
    rw [← h]
    exact ⟨⟨_, alookup_aupdate_self _ _ _⟩, ⟨_, alookup_aupdate_self _ _ _⟩⟩

theorem cums0_lookup {topo : List String} {x : String} (hx : x ∈ topo)
    (hxs : x ≠ "start") :
    alookup x (aupdate "start" (0 : WithBot ℚ)
      (topo.map fun j => (j, (⊥ : WithBot ℚ)))) = some ⊥ := by
  rw [alookup_aupdate_ne _ _ hxs, lookup_const_map, if_pos hx]

theorem cums0_lookup_start (topo : List String) :
    alookup "start" (aupdate "start" (0 : WithBot ℚ)
      (topo.map fun j => (j, (⊥ : WithBot ℚ)))) = some 0 :=
  alookup_aupdate_self _ _ _

theorem longs0_lookup {topo : List String} {x : String} (hx : x ∈ topo) :
    alookup x (topo.map fun j => (j, ([] : List String))) = some [] := by
  rw [lookup_const_map, if_pos hx]

theorem cum_foldlM_self_some {g : MaterialGraphState} {edges : List (String × String)}
    {preds : String → List String} :
    ∀ (l : List String) (st stf : List (String × WithBot ℚ) × List (String × List String)),
    l.foldlM (fun st n => cumStep g edges preds n st) st = some stf →
    ∀ n ∈ l, (∃ c, alookup n stf.1 = some c) ∧ ∃ L, alookup n stf.2 = some L := by
  intro l
  induction l with
  | nil =>
      intro st stf _ n hn
      cases hn
  | cons a t ih =>
      intro st stf h n hn
      rw [List.foldlM_cons] at h
      cases hstep : cumStep g edges preds a st with
      | none =>
          rw [hstep] at h
          exact Option.noConfusion h
      | some st1 =>
          rw [hstep] at h
          by_cases hnt : n ∈ t
          · exact ih st1 stf h n hnt
          · rcases List.mem_cons.mp hn with rfl | hnt2
            · obtain ⟨f1, f2⟩ := cum_foldlM_frame t st1 stf h n hnt
              obtain ⟨⟨c, hc⟩, L, hL⟩ := cumStep_self_some hstep
              exact ⟨⟨c, f1.trans hc⟩, L, f2.trans hL⟩
            · exact absurd hnt2 hnt

theorem update_cum_lt_runs (g : MaterialGraphState)
    (hlen : 0 < (g.edges_pool.map Prod.fst).length)
    (hpool : ∀ x ∈ nodesOf (g.edges_pool.map Prod.fst), x ∈ g.nodes_pool.map Prod.fst)
    (hinc : ∀ j ∈ g.nodes_pool.map Prod.fst, j ∈ nodesOf (g.edges_pool.map Prod.fst))
    (hstart : "start" ∉ g.nodes_pool.map Prod.fst)
    (halter : ∀ jn ∈ g.nodes_pool, jn.2.node_type = "ALTER_MATERIAL" →
      incomingActiveInfo g (g.edges_pool.map Prod.fst) jn.1 ≠ []) :
    ∃ stf res,
      (find_topo_sort (g.edges_pool.map Prod.fst)).foldlM
        (fun st n_id => cumStep g (g.edges_pool.map Prod.fst)
          (fun j => if j ∈ rootsOf (g.edges_pool.map Prod.fst) then ["start"]
            else find_preds_of_node (g.edges_pool.map Prod.fst) j) n_id st)
        (aupdate "start" (0 : WithBot ℚ)
          ((find_topo_sort (g.edges_pool.map Prod.fst)).map fun j =>
            (j, (⊥ : WithBot ℚ))),
         (find_topo_sort (g.edges_pool.map Prod.fst)).map fun j =>
           (j, ([] : List String))) = some stf ∧
      update_cum_lt_info g = some res ∧
      ∀ j node, alookup j g.nodes_pool = some node →
        ∃ c L, alookup j stf.1 = some c ∧ alookup j stf.2 = some L ∧
          alookup j res = some (c, L) := by
  have hnodesucc : ∀ n ∈ find_topo_sort (g.edges_pool.map Prod.fst),
      ∃ node, alookup n g.nodes_pool = some node ∧
        (node.node_type = "ALTER_MATERIAL" →
          incomingActiveInfo g (g.edges_pool.map Prod.fst) n ≠ []) := by
    intro n hn
    have hkey : n ∈ g.nodes_pool.map Prod.fst := hpool n (mem_find_topo_sort.mp hn)
    obtain ⟨node, hnode⟩ := Option.isSome_iff_exists.mp
      ((alookup_isSome_iff n g.nodes_pool).mpr hkey)
    exact ⟨node, hnode, fun ht => halter (n, node) (alookup_mem hnode) ht⟩
  obtain ⟨stf, hstf⟩ := cum_foldlM_succeeds _ hnodesucc
    (aupdate "start" (0 : WithBot ℚ)
      ((find_topo_sort (g.edges_pool.map Prod.fst)).map fun j => (j, (⊥ : WithBot ℚ))),
     (find_topo_sort (g.edges_pool.map Prod.fst)).map fun j => (j, ([] : List String)))
  have hselfsome := cum_foldlM_self_some _ _ _ hstf
  have hall : ∀ jn ∈ g.nodes_pool, (∃ c, alookup jn.1 (aremove "start" stf.1) = some c) ∧
      ∃ L, alookup jn.1 stf.2 = some L := by
    intro jn hjn
    have hkey : jn.1 ∈ g.nodes_pool.map Prod.fst := List.mem_map.mpr ⟨jn, hjn, rfl⟩
    have hjt : jn.1 ∈ find_topo_sort (g.edges_pool.map Prod.fst) :=
      mem_find_topo_sort.mpr (hinc jn.1 hkey)
    have hjs : jn.1 ≠ "start" := fun h => hstart (h ▸ hkey)
    obtain ⟨⟨c, hc⟩, L, hL⟩ := hselfsome jn.1 hjt
    refine ⟨⟨c, ?_⟩, L, hL⟩
    rw [alookup_aremove_ne _ hjs]
    exact hc
  obtain ⟨res, hres⟩ := mapM_res_succeeds g.nodes_pool
    fun jn hjn => ⟨(hall jn hjn).1.choose, (hall jn hjn).1.choose_spec,
      (hall jn hjn).2.choose, (hall jn hjn).2.choose_spec⟩
  have hrun : update_cum_lt_info g = some res := by
    simp only [update_cum_lt_info]
    rw [if_pos hlen, hstf]
    simp only [Option.some_bind]
    exact hres
  refine ⟨stf, res, hstf, hrun, ?_⟩
  intro j node hj
  have hkey : j ∈ g.nodes_pool.map Prod.fst :=
    List.mem_map.mpr ⟨(j, node), alookup_mem hj, rfl⟩
  have hjs : j ≠ "start" := fun h => hstart (h ▸ hkey)
  obtain ⟨c, L, hc, hL, hr⟩ := mapM_res_lookup g.nodes_pool res hres j node hj
  rw [alookup_aremove_ne _ hjs] at hc
  exact ⟨c, L, hc, hL, hr⟩

theorem update_cum_lt_master (g : MaterialGraphState)
    (hlen : 0 < (g.edges_pool.map Prod.fst).length)
    (hacy : AcyclicEdges (g.edges_pool.map Prod.fst))
    (hpool : ∀ x ∈ nodesOf (g.edges_pool.map Prod.fst), x ∈ g.nodes_pool.map Prod.fst)
    (hinc : ∀ j ∈ g.nodes_pool.map Prod.fst, j ∈ nodesOf (g.edges_pool.map Prod.fst))
    (hstart : "start" ∉ g.nodes_pool.map Prod.fst)
    (halter : ∀ jn ∈ g.nodes_pool, jn.2.node_type = "ALTER_MATERIAL" →
      incomingActiveInfo g (g.edges_pool.map Prod.fst) jn.1 ≠ []) :
    ∃ res, update_cum_lt_info g = some res ∧
      ∀ j node, alookup j g.nodes_pool = some node →
        ∃ c L, alookup j res = some (c, L) ∧
          (node.node_type ≠ "ALTER_MATERIAL" →
            j ∉ rootsOf (g.edges_pool.map Prod.fst) →
            (∀ p ∈ find_preds_of_node (g.edges_pool.map Prod.fst) j,
              resCum res p + ((node.lt : ℚ) : WithBot ℚ) ≤ c) ∧
            (∃ p ∈ find_preds_of_node (g.edges_pool.map Prod.fst) j,
              c = resCum res p + ((node.lt : ℚ) : WithBot ℚ)) ∧
            (∀ x, x ∈ L ↔ x ∈ find_preds_of_node (g.edges_pool.map Prod.fst) j ∧
              resCum res x + ((node.lt : ℚ) : WithBot ℚ) = c)) ∧
          (node.node_type ≠ "ALTER_MATERIAL" →
            j ∈ rootsOf (g.edges_pool.map Prod.fst) →
            c = ((node.lt : ℚ) : WithBot ℚ) ∧ L = ["start"]) ∧
          (node.node_type = "ALTER_MATERIAL" →
            (node.alter_time_mode = "EXP" →
              c = (((incomingActiveInfo g (g.edges_pool.map Prod.fst) j).map fun pr =>
                (pr.1, pr.2, resCum res pr.1 + ((node.lt : ℚ) : WithBot ℚ))).map
                  fun x => WithBot.map (fun t => t * x.2.1) x.2.2).foldl (· + ·)
                (0 : WithBot ℚ)) ∧
            (node.alter_time_mode = "MAX" →
              (∀ pr ∈ incomingActiveInfo g (g.edges_pool.map Prod.fst) j,
                resCum res pr.1 + ((node.lt : ℚ) : WithBot ℚ) ≤ c) ∧
              ∃ pr ∈ incomingActiveInfo g (g.edges_pool.map Prod.fst) j,
                c = resCum res pr.1 + ((node.lt : ℚ) : WithBot ℚ)) ∧
            (node.alter_time_mode = "MIN" →
              (∀ pr ∈ incomingActiveInfo g (g.edges_pool.map Prod.fst) j,
                c ≤ resCum res pr.1 + ((node.lt : ℚ) : WithBot ℚ)) ∧
              ∃ pr ∈ incomingActiveInfo g (g.edges_pool.map Prod.fst) j,
                c = resCum res pr.1 + ((node.lt : ℚ) : WithBot ℚ))) := by
  obtain ⟨stf, res, hstf, hrun, hper⟩ :=
    update_cum_lt_runs g hlen hpool hinc hstart halter
  refine ⟨res, hrun, ?_⟩
  intro j node hj
  obtain ⟨c, L, hcf, hLf, hr⟩ := hper j node hj
  have hkey : j ∈ g.nodes_pool.map Prod.fst :=
    List.mem_map.mpr ⟨(j, node), alookup_mem hj, rfl⟩
  have hjs : j ≠ "start" := fun h => hstart (h ▸ hkey)
  have hjn : j ∈ nodesOf (g.edges_pool.map Prod.fst) := hinc j hkey
  have hjt : j ∈ find_topo_sort (g.edges_pool.map Prod.fst) := mem_find_topo_sort.mpr hjn
  have hstart_topo : "start" ∉ find_topo_sort (g.edges_pool.map Prod.fst) :=
    fun h => hstart (hpool _ (mem_find_topo_sort.mp h))
  obtain ⟨l1, l2, hdec⟩ := List.append_of_mem hjt
  have hnd : (l1 ++ j :: l2).Nodup := hdec ▸ find_topo_sort_nodup _
  have hdisj := List.disjoint_of_nodup_append hnd
  have hjl1 : j ∉ l1 := fun hm => hdisj hm (List.mem_cons_self _ _)
  have hjl2 : j ∉ l2 := (List.nodup_cons.mp hnd.of_append_right).1
  have hstf2 := hstf
  rw [hdec] at hstf2
  obtain ⟨stmid, st1, hmid, hstep, he1, he2, hframe⟩ := cum_value_at hjl2 hstf2
  obtain ⟨m1, m2⟩ := cum_foldlM_frame l1 _ stmid hmid j hjl1
  have hjmid1 : alookup j stmid.1 = some ⊥ := by
    rw [m1]
    exact cums0_lookup (List.mem_append_right _ (List.mem_cons_self _ _)) hjs
  have hjmid2 : alookup j stmid.2 = some [] := by
    rw [m2]
    exact longs0_lookup (List.mem_append_right _ (List.mem_cons_self _ _))
  have hc1 : alookup j st1.1 = some c := by
    rw [← he1]
    exact hcf
  have hL1 : alookup j st1.2 = some L := by
    rw [← he2]
    exact hLf
  have hreadp : ∀ p ∈ find_preds_of_node (g.edges_pool.map Prod.fst) j,
      resCum res p = (alookup p stmid.1).getD ⊥ := by
    intro p hp
    have hedge : (p, j) ∈ g.edges_pool.map Prod.fst := mem_find_preds.mp hp
    have hcb : comesBefore (find_topo_sort (g.edges_pool.map Prod.fst)) p j :=
      find_topo_sort_sorted hacy (p, j) hedge
    have hpl1 : p ∈ l1 := mem_left_of_comesBefore (find_topo_sort_nodup _) hdec hcb
    have hpnot : p ∉ j :: l2 := fun hm => hdisj hpl1 hm
    obtain ⟨fr1, _fr2⟩ := hframe p hpnot
    have hpkey : p ∈ g.nodes_pool.map Prod.fst := hpool p (preds_subset_nodesOf hp)
    obtain ⟨nodep, hnodep⟩ := Option.isSome_iff_exists.mp
      ((alookup_isSome_iff p g.nodes_pool).mpr hpkey)
    obtain ⟨cp, _Lp, hcp, _hLp, hresp⟩ := hper p nodep hnodep
    rw [resCum, hresp, Option.map_some', Option.getD_some, ← fr1, hcp]
    rfl
  have hpne : j ∉ rootsOf (g.edges_pool.map Prod.fst) →
      find_preds_of_node (g.edges_pool.map Prod.fst) j ≠ [] := by
    intro hroot hnil
    rcases mem_nodesOf.mp hjn with hsrc | htgt
    · by_cases htg : j ∈ (g.edges_pool.map Prod.fst).map Prod.snd
      · obtain ⟨e, he, he2⟩ := List.mem_map.mp htg
        have hm : e.1 ∈ find_preds_of_node (g.edges_pool.map Prod.fst) j := by
          rw [mem_find_preds, ← he2, Prod.mk.eta]
          exact he
        rw [hnil] at hm
        exact List.not_mem_nil _ hm
      · exact hroot (mem_rootsOf.mpr ⟨hsrc, htg⟩)
    · obtain ⟨e, he, he2⟩ := List.mem_map.mp htgt
      have hm : e.1 ∈ find_preds_of_node (g.edges_pool.map Prod.fst) j := by
        rw [mem_find_preds, ← he2, Prod.mk.eta]
        exact he
      rw [hnil] at hm
      exact List.not_mem_nil _ hm
  refine ⟨c, L, hr, ?_, ?_, ?_⟩
  · intro htype hroot
    obtain ⟨vj1, vj2⟩ := cumStep_value_nonalter hj htype hstep
    simp only [if_neg hroot] at vj1 vj2
    simp only [hjmid1, hjmid2, Option.getD_some] at vj1 vj2
    have hceq := Option.some_inj.mp (hc1.symm.trans vj1)
    have hLeq := Option.some_inj.mp (hL1.symm.trans vj2)
    obtain ⟨_g1, g2, g3, g4⟩ := maxFold_general
      (fun p => (alookup p stmid.1).getD ⊥ + ((node.lt : ℚ) : WithBot ℚ))
      (find_preds_of_node (g.edges_pool.map Prod.fst) j) ⊥ []
    refine ⟨?_, ?_, ?_⟩
    · intro p hp
      rw [hreadp p hp, hceq]
      exact g2 p hp
    · rcases g3 with hbot | ⟨p0, hp0, hfp⟩
      · obtain ⟨p0, hp0⟩ := List.exists_mem_of_ne_nil _ (hpne hroot)
        have hle := g2 p0 hp0
        have hfb : (alookup p0 stmid.1).getD ⊥ + ((node.lt : ℚ) : WithBot ℚ)
            = (⊥ : WithBot ℚ) := le_bot_iff.mp (hle.trans (le_of_eq hbot))
        refine ⟨p0, hp0, ?_⟩
        rw [hreadp p0 hp0, hceq, hfb]
        exact hbot
      · refine ⟨p0, hp0, ?_⟩
        rw [hreadp p0 hp0, hceq]
        exact hfp
    · intro x
      rw [hLeq]
      constructor
      · intro hx
        rcases (g4 x).mp hx with ⟨_, hmem⟩ | ⟨hxp, hfx⟩
        · cases hmem
        · refine ⟨hxp, ?_⟩
          rw [hreadp x hxp, hceq]
          exact hfx
      · rintro ⟨hxp, hval⟩
        apply (g4 x).mpr
        refine Or.inr ⟨hxp, ?_⟩
        rw [hreadp x hxp, hceq] at hval
        exact hval
  · intro htype hroot
    obtain ⟨vj1, vj2⟩ := cumStep_value_nonalter hj htype hstep
    simp only [if_pos hroot] at vj1 vj2
    have hst_l1 : "start" ∉ l1 := fun hm => hstart_topo (by
      rw [hdec]
      exact List.mem_append_left _ hm)
    obtain ⟨s1, _s2⟩ := cum_foldlM_frame l1 _ stmid hmid "start" hst_l1
    have hsmid : alookup "start" stmid.1 = some 0 := by
      rw [s1]
      exact cums0_lookup_start _
    simp only [List.foldl_cons, List.foldl_nil, hjmid1, hjmid2, Option.getD_some,
      hsmid] at vj1 vj2
    have hlt0 : (⊥ : WithBot ℚ) < (0 : WithBot ℚ) + ((node.lt : ℚ) : WithBot ℚ) := by
      rw [zero_add]
      exact WithBot.bot_lt_coe _
    rw [if_pos hlt0] at vj1 vj2
    have hcv : c = (0 : WithBot ℚ) + ((node.lt : ℚ) : WithBot ℚ) :=
      Option.some_inj.mp (hc1.symm.trans vj1)
    refine ⟨?_, Option.some_inj.mp (hL1.symm.trans vj2)⟩
    rw [hcv, zero_add]
  · intro htype
    obtain ⟨ca, hca, vj1, vj2⟩ := cumStep_value_alter hj htype hstep
    have hceq : c = ca := Option.some_inj.mp (hc1.symm.trans vj1)
    subst hceq
    have hne : incomingActiveInfo g (g.edges_pool.map Prod.fst) j ≠ [] :=
      halter (j, node) (alookup_mem hj) htype
    have hmapeq : (incomingActiveInfo g (g.edges_pool.map Prod.fst) j).map
        (fun pr => (pr.1, pr.2,
          (alookup pr.1 stmid.1).getD ⊥ + ((node.lt : ℚ) : WithBot ℚ)))
        = (incomingActiveInfo g (g.edges_pool.map Prod.fst) j).map
        (fun pr => (pr.1, pr.2, resCum res pr.1 + ((node.lt : ℚ) : WithBot ℚ))) := by
      apply List.map_congr_left
      intro pr hpr
      rw [hreadp pr.1 (incomingActive_sub hpr)]
    rw [hmapeq] at hca
    refine ⟨?_, ?_, ?_⟩
    · intro hexp
      rw [altCum, if_pos hexp, Option.some_inj] at hca
      exact hca.symm
    · intro hmax
      have hexp_ne : node.alter_time_mode ≠ "EXP" := by
        rw [hmax]
        decide
      rw [altCum, if_neg hexp_ne, if_pos hmax] at hca
      cases hmm : ((incomingActiveInfo g (g.edges_pool.map Prod.fst) j).map
          (fun pr => (pr.1, pr.2, resCum res pr.1 + ((node.lt : ℚ) : WithBot ℚ)))).map
          (fun x => x.2.2) with
      | nil =>
          exact absurd (List.map_eq_nil_iff.mp (List.map_eq_nil_iff.mp hmm)) hne
      | cons t ts =>
          rw [hmm] at hca
          have hfold : ts.foldl max t = c := Option.some_inj.mp hca
          obtain ⟨b1, b2⟩ := foldl_max_spec ts t
          constructor
          · intro pr hpr
            have hmem : resCum res pr.1 + ((node.lt : ℚ) : WithBot ℚ) ∈ t :: ts := by
              rw [← hmm]
              exact List.mem_map.mpr ⟨(pr.1, pr.2, resCum res pr.1 +
                ((node.lt : ℚ) : WithBot ℚ)), List.mem_map.mpr ⟨pr, hpr, rfl⟩, rfl⟩
            exact hfold ▸ b1 _ hmem
          · rw [← hmm] at b2
            obtain ⟨x, hx, hxv⟩ := List.mem_map.mp b2
            obtain ⟨pr, hpr, hpx⟩ := List.mem_map.mp hx
            refine ⟨pr, hpr, ?_⟩
            rw [← hfold, ← hxv, ← hpx]
    · intro hmin
      have hexp_ne : node.alter_time_mode ≠ "EXP" := by
        rw [hmin]
        decide
      have hmax_ne : node.alter_time_mode ≠ "MAX" := by
        rw [hmin]
        decide
      rw [altCum, if_neg hexp_ne, if_neg hmax_ne, if_pos hmin] at hca
      cases hmm : ((incomingActiveInfo g (g.edges_pool.map Prod.fst) j).map
          (fun pr => (pr.1, pr.2, resCum res pr.1 + ((node.lt : ℚ) : WithBot ℚ)))).map
          (fun x => x.2.2) with
      | nil =>
          exact absurd (List.map_eq_nil_iff.mp (List.map_eq_nil_iff.mp hmm)) hne
      | cons t ts =>
          rw [hmm] at hca
          have hfold : ts.foldl min t = c := Option.some_inj.mp hca
          obtain ⟨b1, b2⟩ := foldl_min_spec ts t
          constructor
          · intro pr hpr
            have hmem : resCum res pr.1 + ((node.lt : ℚ) : WithBot ℚ) ∈ t :: ts := by
              rw [← hmm]
              exact List.mem_map.mpr ⟨(pr.1, pr.2, resCum res pr.1 +
                ((node.lt : ℚ) : WithBot ℚ)), List.mem_map.mpr ⟨pr, hpr, rfl⟩, rfl⟩
            exact hfold ▸ b1 _ hmem
          · rw [← hmm] at b2
            obtain ⟨x, hx, hxv⟩ := List.mem_map.mp b2
            obtain ⟨pr, hpr, hpx⟩ := List.mem_map.mp hx
            refine ⟨pr, hpr, ?_⟩
            rw [← hfold, ← hxv, ← hpx]

/-! ### Helpers for the claim theorems -/

theorem cyc_not_acyclic : ¬ AcyclicEdges cycEdges := by
  intro h
  have s1 : succStep (find_succs_of_node cycEdges) "a" "b" :=
    show "b" ∈ find_succs_of_node cycEdges "a" by decide
  have s2 : succStep (find_succs_of_node cycEdges) "b" "a" :=
    show "a" ∈ find_succs_of_node cycEdges "b" by decide
  exact h "a" (Relation.TransGen.head s1 (Relation.TransGen.single s2))

theorem not_comesBefore_of_indexOf {l : List String} {u v : String}
    (hnd : l.Nodup) (hge : l.indexOf v ≤ l.indexOf u) : ¬ comesBefore l u v :=
  fun h => absurd (comesBefore_indexOf_lt h hnd) (by omega)

theorem alookup_map_keyed {β γ : Type} (f : String → β → γ) (j : String) :
    ∀ l : List (String × β),
    alookup j (l.map fun p => (p.1, f p.1 p.2)) = (alookup j l).map (f j) := by
  intro l
  induction l with
  | nil => rfl
  | cons p t ih =>
      obtain ⟨a, b⟩ := p
      by_cases haj : a = j
      · subst haj
        simp [alookup]
      · simp only [List.map_cons, alookup, if_neg haj]
        exact ih

theorem mapM_lookup_isSome (pool : List (String × DNodeState)) :
    ∀ l : List String,
    (l.mapM fun j => (alookup j pool).map fun n => (j, n)).isSome = true ↔
      ∀ j ∈ l, j ∈ pool.map Prod.fst := by
  intro l
  induction l with
  | nil =>
      simp only [List.mapM_nil]
      constructor
      · intro _ j hj
        cases hj
      · intro _
        rfl
  | cons a t ih =>
      cases ha : alookup a pool with
      | none =>
          have hval : ((a :: t).mapM fun j => (alookup j pool).map fun n => (j, n))
              = none := by
            rw [List.mapM_cons, ha]
            rfl
          rw [hval]
          simp only [Option.isSome_none, Bool.false_eq_true, false_iff]
          intro hall
          exact (alookup_eq_none_iff a pool).mp ha (hall a (List.mem_cons_self _ _))
      | some n =>
          cases ht : t.mapM (fun j => (alookup j pool).map fun n => (j, n)) with
          | none =>
              have hval : ((a :: t).mapM fun j => (alookup j pool).map fun n => (j, n))
                  = none := by
                rw [List.mapM_cons, ha, ht]
                rfl
              rw [hval]
              rw [ht] at ih
              simp only [Option.isSome_none, Bool.false_eq_true, false_iff] at ih ⊢
              intro hall
              exact ih fun j hj => hall j (List.mem_cons_of_mem _ hj)
          | some rs =>
              have hval : ((a :: t).mapM fun j => (alookup j pool).map fun n => (j, n))
                  = some ((a, n) :: rs) := by
                rw [List.mapM_cons, ha, ht]
                rfl
              rw [hval]
              rw [ht] at ih
              simp only [Option.isSome_some, true_iff] at ih ⊢
              intro j hj
              rcases List.mem_cons.mp hj with rfl | hj2
              · exact List.mem_map.mpr ⟨(j, n), alookup_mem ha, rfl⟩
              · exact ih j hj2

theorem update_topo_info_isSome_iff (g : DiGraphState) :
    (update_topo_info g).isSome = true ↔
      (∀ r ∈ (if 0 < g.edges_pool.length then rootsOf g.edges_pool else []),
        r ∈ g.nodes_pool.map Prod.fst) ∧
      (∀ s ∈ (if 0 < g.edges_pool.length then sinksOf g.edges_pool
          else g.nodes_pool.map Prod.fst),
        s ∈ g.nodes_pool.map Prod.fst) := by
  simp only [update_topo_info]
  cases hm1 : (if 0 < g.edges_pool.length then rootsOf g.edges_pool else []).mapM
      fun j => (alookup j g.nodes_pool).map fun n => (j, n) with
  | none =>
      simp only [hm1, Option.none_bind, Option.isSome_none, Bool.false_eq_true,
        false_iff]
      intro hcon
      have := (mapM_lookup_isSome g.nodes_pool _).mpr hcon.1
      rw [hm1] at this
      cases this
  | some rpool =>
      simp only [hm1, Option.some_bind]
      have h1 : ∀ r ∈ (if 0 < g.edges_pool.length then rootsOf g.edges_pool else []),
          r ∈ g.nodes_pool.map Prod.fst := by
        have := (mapM_lookup_isSome g.nodes_pool _).mp (by rw [hm1]; rfl)
        exact this
      cases hm2 : (if 0 < g.edges_pool.length then sinksOf g.edges_pool
          else g.nodes_pool.map Prod.fst).mapM
          fun j => (alookup j g.nodes_pool).map fun n => (j, n) with
      | none =>
          simp only [hm2, Option.none_bind, Option.isSome_none, Bool.false_eq_true,
            false_iff]
          intro hcon
          have := (mapM_lookup_isSome g.nodes_pool _).mpr hcon.2
          rw [hm2] at this
          cases this
      | some spool =>
          simp only [hm2, Option.some_bind, Option.isSome_some, true_iff]
          have h2 : ∀ s ∈ (if 0 < g.edges_pool.length then sinksOf g.edges_pool
              else g.nodes_pool.map Prod.fst), s ∈ g.nodes_pool.map Prod.fst := by
            have := (mapM_lookup_isSome g.nodes_pool _).mp (by rw [hm2]; rfl)
            exact this
          exact ⟨h1, h2⟩

theorem update_topo_info_nodes {g g2 : DiGraphState}
    (h : update_topo_info g = some g2) :
    ∀ j node, alookup j g2.nodes_pool = some node →
      node.pred_nodes = find_preds_of_node g.edges_pool j ∧
      node.succ_nodes = find_succs_of_node g.edges_pool j := by
  intro j node hj
  simp only [update_topo_info, Option.bind_eq_some] at h
  obtain ⟨rpool, _hr, spool, _hs, hsome⟩ := h
  have hpool : g2.nodes_pool = (g.nodes_pool.map fun jn =>
      (jn.1, { jn.2 with
        pred_nodes := find_preds_of_node g.edges_pool jn.1,
        succ_nodes := find_succs_of_node g.edges_pool jn.1 })).map fun jn =>
      (jn.1, { jn.2 with
        incoming_edges_info := jn.2.pred_nodes.map fun p => (p, jn.1) }) := by
    rw [← Option.some_inj.mp hsome]
  have key : alookup j g2.nodes_pool =
      ((alookup j g.nodes_pool).map (fun b =>
        { b with
          pred_nodes := find_preds_of_node g.edges_pool j,
          succ_nodes := find_succs_of_node g.edges_pool j })).map (fun b =>
        { b with incoming_edges_info := b.pred_nodes.map fun p => (p, j) }) := by
    rw [hpool]
    exact Eq.trans
      (alookup_map_keyed (fun k (b : DNodeState) =>
        { b with incoming_edges_info := b.pred_nodes.map fun p => (p, k) }) j _)
      (congrArg (Option.map _)
        (alookup_map_keyed (fun k (b : DNodeState) =>
          { b with
            pred_nodes := find_preds_of_node g.edges_pool k,
            succ_nodes := find_succs_of_node g.edges_pool k }) j _))
  rw [key] at hj
  cases hb : alookup j g.nodes_pool with
  | none =>
      rw [hb] at hj
      exact Option.noConfusion hj
  | some b =>
      rw [hb, Option.map_some', Option.map_some', Option.some_inj] at hj
      rw [← hj]
      exact ⟨rfl, rfl⟩

/-! ### Claim theorems -/

/-- C1: the spec claims `sites_transit_lt(u, v)` returns the minimum total
transit lead time over all simple paths from `u` to `v`; in the code the
direct-edge branch short-circuits first, so on a graph where the direct edge
`A→B` costs 10 while the two-hop path `A→C→B` costs 4, the function returns
10 although the minimum over all simple paths is 4. -/
theorem sites_transit_lt_direct_shadows_min :
    sites_transit_lt siteEx "A" "B" = ((10 : ℚ) : WithTop ℚ) ∧
    site_min_path_lt siteEx "A" "B" = ((4 : ℚ) : WithTop ℚ) ∧
    sites_transit_lt siteEx "A" "B" ≠ site_min_path_lt siteEx "A" "B" := by
  have h1 : sites_transit_lt siteEx "A" "B" = ((10 : ℚ) : WithTop ℚ) := by
    simp +decide [sites_transit_lt, siteEx, transitLtOf, alookup2]
  have h2 : site_min_path_lt siteEx "A" "B" = ((4 : ℚ) : WithTop ℚ) := by
    simp +decide [site_min_path_lt, siteEx, find_all_paths, nodesOf,
      find_succs_of_node, transitLtOf, alookup2, path_cum_edge_lt]
    have e1 : (10 : WithTop ℚ) = ((10 : ℚ) : WithTop ℚ) := rfl
    have e2 : ((2 : WithTop ℚ) + 2) = ((4 : ℚ) : WithTop ℚ) := by
      rw [show (2 : WithTop ℚ) = ((2 : ℚ) : WithTop ℚ) from rfl, ← WithTop.coe_add,
        WithTop.coe_eq_coe]
      norm_num
    rw [e1, e2, ← WithTop.coe_min,
      show (4 : WithTop ℚ) = ((4 : ℚ) : WithTop ℚ) from rfl, WithTop.coe_eq_coe,
      min_eq_right (by norm_num : (4 : ℚ) ≤ 10)]
  refine ⟨h1, h2, ?_⟩
  rw [h1, h2]
  intro h
  rw [WithTop.coe_eq_coe] at h
  norm_num at h

/-- C2 counterexample: on the two-edge cycle `a→b→a`, `find_topo_sort` does
not fail at all — it returns the ordering `["b", "a"]`, in which the edge
`(a, b)` is out of order. -/
theorem find_topo_sort_cycle_counterexample :
    (¬ AcyclicEdges cycEdges) ∧ find_topo_sort cycEdges = ["b", "a"] ∧
    ("a", "b") ∈ cycEdges ∧
    ¬ comesBefore (find_topo_sort cycEdges) "a" "b" := by
  have heval : find_topo_sort cycEdges = ["b", "a"] := by
    simp +decide [find_topo_sort, dfsTopo, succsNilOutside, nodesOf,
      find_succs_of_node, cycEdges]
  refine ⟨cyc_not_acyclic, heval, by decide, ?_⟩
  rw [heval]
  exact not_comesBefore_of_indexOf (by decide) (by decide)

/-- C2 (amended): `find_topo_sort` always terminates and never raises; it
returns a duplicate-free ordering of exactly the edge-incident nodes, and on a
cyclic edge list, instead of failing with a cycle-detected error, it silently
returns an ordering that is invalid — at least one edge's source does not come
before its target. -/
theorem find_topo_sort_amended (edges : List (String × String)) :
    (find_topo_sort edges).Nodup ∧
    (∀ x, x ∈ find_topo_sort edges ↔ x ∈ nodesOf edges) ∧
    (¬ AcyclicEdges edges →
      ∃ e ∈ edges, ¬ comesBefore (find_topo_sort edges) e.1 e.2) := by
  refine ⟨find_topo_sort_nodup edges, fun x => mem_find_topo_sort, ?_⟩
  intro hnac
  by_contra hall
  push_neg at hall
  exact hnac (acyclic_of_ordered edges (find_topo_sort edges)
    (find_topo_sort_nodup edges) fun e he => hall e he)

/-- C2 witness: the amended statement at the concrete cyclic edge list. -/
theorem find_topo_sort_amended_witness :
    (find_topo_sort cycEdges).Nodup ∧
    (∀ x, x ∈ find_topo_sort cycEdges ↔ x ∈ nodesOf cycEdges) ∧
    (¬ AcyclicEdges cycEdges →
      ∃ e ∈ cycEdges, ¬ comesBefore (find_topo_sort cycEdges) e.1 e.2) :=
  find_topo_sort_amended cycEdges

/-- C3 counterexample: in `dgMissingMid`, the id `b` is referenced by both an
incoming and an outgoing edge but is absent from the node pool, yet
`update_topo_info` succeeds — the missing id is neither a root nor a sink, and
only roots and sinks are ever looked up. -/
theorem update_topo_info_missing_mid_counterexample :
    "b" ∈ nodesOf dgMissingMid.edges_pool ∧
    "b" ∉ dgMissingMid.nodes_pool.map Prod.fst ∧
    (update_topo_info dgMissingMid).isSome = true := by
  refine ⟨by decide, by decide, by decide⟩

/-- C3 (amended): `update_topo_info` fails (the `KeyError` of the
`find_roots`/`find_sinks` dict comprehensions, modelled as `none`) exactly
when some root id (when edges exist) or some sink id (every pool id when
there are no edges) is missing from the node pool; it never validates the
other edge-referenced ids and its failure carries no list of missing ids. -/
theorem update_topo_info_amended (g : DiGraphState) :
    (update_topo_info g).isSome = true ↔
      (∀ r ∈ (if 0 < g.edges_pool.length then rootsOf g.edges_pool else []),
        r ∈ g.nodes_pool.map Prod.fst) ∧
      (∀ s ∈ (if 0 < g.edges_pool.length then sinksOf g.edges_pool
          else g.nodes_pool.map Prod.fst),
        s ∈ g.nodes_pool.map Prod.fst) :=
  update_topo_info_isSome_iff g

/-- C3 witness: the amended characterization evaluated on the two-node graph
`dgSmall`, whose roots and sinks are all pooled. -/
theorem update_topo_info_amended_witness :
    (update_topo_info dgSmall).isSome = true ∧
    ∀ r ∈ (if 0 < dgSmall.edges_pool.length then rootsOf dgSmall.edges_pool
        else []), r ∈ dgSmall.nodes_pool.map Prod.fst :=
  ⟨by decide, fun r hr => ((update_topo_info_amended dgSmall).mp (by decide)).1 r hr⟩

/-- C4: on an acyclic material graph, for every sink `s` the net-quantity
table has `net_qty[s, s] = 1` and, for every node `a` in the ancestor closure
of `s` other than `s`, `net_qty[a, s]` is the sum over the immediate
successors `t` of `a` inside that closure of
`qty(a→t) * net_qty[t, s]` (with `qty = original_qty * decision_ratio`); in
the spec's BOM diamond, `net_qty[C, F] = 5`. -/
theorem cal_net_qty_correct :
    (∀ (g : MaterialGraphState) (s : String),
      AcyclicEdges (g.edges_pool.map Prod.fst) →
      s ∈ sinksOf (g.edges_pool.map Prod.fst) →
      alookup2 (s, s) (update_net_qty g) = some 1 ∧
      ∀ a ∈ (find_ancestors_of (g.edges_pool.map Prod.fst) s).1, a ≠ s →
        alookup2 (a, s) (update_net_qty g) = some
          (((find_succs_of_node (find_ancestors_of (g.edges_pool.map Prod.fst) s).2
              a).map
            fun t => g.edge_qty (a, t) *
              (alookup2 (t, s) (update_net_qty g)).getD 0).sum)) ∧
    alookup2 ("C", "F") (update_net_qty diamondG) = some 5 := by
  constructor
  · intro g s hacy hs
    obtain ⟨hbase, hrec⟩ :=
      sinkFilled_spec (g.edges_pool.map Prod.fst) g.edge_qty hacy hs
    constructor
    · rw [show update_net_qty g = cal_net_qty (g.edges_pool.map Prod.fst)
        g.edge_qty from rfl, cal_net_qty_lookup _ _ hs]
      exact hbase
    · intro a ha has
      rw [show update_net_qty g = cal_net_qty (g.edges_pool.map Prod.fst)
        g.edge_qty from rfl, cal_net_qty_lookup _ _ hs, hrec a ha has]
      congr 1
      refine congrArg List.sum (List.map_congr_left ?_)
      intro t _ht
      rw [cal_net_qty_lookup _ _ hs]
  · simp +decide [update_net_qty, cal_net_qty, sinkFilled, find_ancestors_of,
      dfsClos, find_topo_sort, dfsTopo, succsNilOutside, predsNilOutside,
      nodesOf, find_succs_of_node, find_preds_of_node, sinksOf, diamondG,
      mkMEdge, MaterialGraphState.edge_qty, MaterialEdgeState.qty, alookup,
      alookup2, aupdate]
    norm_num

/-- C4 witness: the recurrence applied to the diamond at its sink `F`. -/
theorem cal_net_qty_correct_witness :
    AcyclicEdges (diamondG.edges_pool.map Prod.fst) ∧
    "F" ∈ sinksOf (diamondG.edges_pool.map Prod.fst) ∧
    alookup2 ("F", "F") (update_net_qty diamondG) = some 1 := by
  have hacy : AcyclicEdges (diamondG.edges_pool.map Prod.fst) :=
    acyclic_of_rank _ (fun v => if v = "C" then 0 else if v = "F" then 2 else 1)
      (by decide)
  have hs : "F" ∈ sinksOf (diamondG.edges_pool.map Prod.fst) := by decide
  exact ⟨hacy, hs, (cal_net_qty_correct.1 diamondG "F" hacy hs).1⟩

/-- C7: on an acyclic edge list, `find_topo_sort` returns an ordering
(duplicate-free) of exactly the edge-incident nodes in which every edge's
source comes strictly before its target. -/
theorem find_topo_sort_edge_order (edges : List (String × String))
    (hacy : AcyclicEdges edges) :
    (find_topo_sort edges).Nodup ∧
    (∀ x, x ∈ find_topo_sort edges ↔ x ∈ nodesOf edges) ∧
    ∀ e ∈ edges, comesBefore (find_topo_sort edges) e.1 e.2 :=
  ⟨find_topo_sort_nodup edges, fun _x => mem_find_topo_sort,
    find_topo_sort_sorted hacy⟩

/-- C7 witness: the edge-order property on the concrete acyclic chain. -/
theorem find_topo_sort_edge_order_witness :
    AcyclicEdges chainEdges ∧
    ((find_topo_sort chainEdges).Nodup ∧
      (∀ x, x ∈ find_topo_sort chainEdges ↔ x ∈ nodesOf chainEdges) ∧
      ∀ e ∈ chainEdges, comesBefore (find_topo_sort chainEdges) e.1 e.2) := by
  have hacy : AcyclicEdges chainEdges := acyclic_of_rank _
    (fun v => if v = "a" then 0 else if v = "b" then 1 else 2) (by decide)
  exact ⟨hacy, find_topo_sort_edge_order chainEdges hacy⟩

/-- C9: whatever arguments `AlterMaterialNode.__init__` receives, the
constructed node has `lt = 0`, `process_lt = 0`, `replenish_cycle = 0`,
`inv_type = 'NO'`, `sale_price = None` and `sale_sla = None` (the subclass
body overwrites every mis-bound positional argument), so adding the node's
`lt` to a predecessor's cumulative lead time changes nothing. -/
theorem alter_node_init_fields (node_id company_id site_id material_id : String)
    (desc make_or_buy : Option String)
    (holding_cost material_cost sale_price sale_sla avg_fill_time : Option ℚ)
    (alter_time_mode : String) :
    (alterMaterialNodeInit node_id company_id site_id material_id desc
      make_or_buy holding_cost material_cost sale_price sale_sla avg_fill_time
      alter_time_mode).lt = 0 ∧
    (alterMaterialNodeInit node_id company_id site_id material_id desc
      make_or_buy holding_cost material_cost sale_price sale_sla avg_fill_time
      alter_time_mode).process_lt = 0 ∧
    (alterMaterialNodeInit node_id company_id site_id material_id desc
      make_or_buy holding_cost material_cost sale_price sale_sla avg_fill_time
      alter_time_mode).replenish_cycle = 0 ∧
    (alterMaterialNodeInit node_id company_id site_id material_id desc
      make_or_buy holding_cost material_cost sale_price sale_sla avg_fill_time
      alter_time_mode).inv_type = some "NO" ∧
    (alterMaterialNodeInit node_id company_id site_id material_id desc
      make_or_buy holding_cost material_cost sale_price sale_sla avg_fill_time
      alter_time_mode).sale_price = none ∧
    (alterMaterialNodeInit node_id company_id site_id material_id desc
      make_or_buy holding_cost material_cost sale_price sale_sla avg_fill_time
      alter_time_mode).sale_sla = none ∧
    ∀ c : WithBot ℚ,
      c + (((alterMaterialNodeInit node_id company_id site_id material_id desc
        make_or_buy holding_cost material_cost sale_price sale_sla avg_fill_time
        alter_time_mode).lt : ℚ) : WithBot ℚ) = c := by
  refine ⟨rfl, rfl, rfl, rfl, rfl, rfl, ?_⟩
  intro c
  show c + ((0 : ℚ) : WithBot ℚ) = c
  rw [WithBot.coe_zero]
  exact add_zero c

/-- C10: `add_succ_node` leaves the successor set unchanged and instead
inserts the new id into the predecessor set (the source writes
`self._pred_nodes.add(new_succ_node)`); the adjacency sets only become
consistent with the edge pool again when `update_topo_info` overwrites both
from the edges, as the concrete run on `dgSmall` (whose node `a` carries the
stale state) shows. -/
theorem add_succ_node_frame_effect :
    (∀ (n : DNodeState) (x : String),
      (add_succ_node n x).succ_nodes = n.succ_nodes ∧
      (add_succ_node n x).pred_nodes = n.pred_nodes.insert x) ∧
    (∀ (g g2 : DiGraphState), update_topo_info g = some g2 →
      ∀ j node, alookup j g2.nodes_pool = some node →
        node.pred_nodes = find_preds_of_node g.edges_pool j ∧
        node.succ_nodes = find_succs_of_node g.edges_pool j) ∧
    (alookup "a" dgSmall.nodes_pool).map DNodeState.succ_nodes = some [] ∧
    (alookup "a" dgSmall.nodes_pool).map DNodeState.pred_nodes = some ["b"] ∧
    ((update_topo_info dgSmall).bind fun g2 =>
      (alookup "a" g2.nodes_pool).map fun n => (n.pred_nodes, n.succ_nodes))
      = some ([], ["b"]) := by
  exact ⟨fun n x => ⟨rfl, rfl⟩, fun g g2 h => update_topo_info_nodes h,
    by decide, by decide, by decide⟩

/-- C10 witness: the frame effect at a concrete node and id. -/
theorem add_succ_node_frame_effect_witness :
    (add_succ_node (mkDNode "a") "b").succ_nodes = [] ∧
    (add_succ_node (mkDNode "a") "b").pred_nodes = ["b"] :=
  ⟨(add_succ_node_frame_effect.1 (mkDNode "a") "b").1, by decide⟩

/-- C5: on a well-formed acyclic material graph (pooled nodes and
edge-incident ids coincide, no reserved `start` id, every alternate node has
an active incoming alternative), `update_cum_lt_info` gives every alternate
node the aggregate over exactly its active incoming alternatives (decision
ratio > 0) of the terms `cum_lt[p] + lt[n]`: their ratio-weighted sum in EXP
mode, their maximum in MAX mode and their minimum in MIN mode; on the
concrete two-alternative graph with terms 10 and 20 and ratios 1/2, EXP
yields 15, MAX yields 20 and MIN yields 10. -/
theorem alter_cum_lt_modes :
    (∀ g : MaterialGraphState,
      0 < (g.edges_pool.map Prod.fst).length →
      AcyclicEdges (g.edges_pool.map Prod.fst) →
      (∀ x ∈ nodesOf (g.edges_pool.map Prod.fst), x ∈ g.nodes_pool.map Prod.fst) →
      (∀ j ∈ g.nodes_pool.map Prod.fst, j ∈ nodesOf (g.edges_pool.map Prod.fst)) →
      "start" ∉ g.nodes_pool.map Prod.fst →
      (∀ jn ∈ g.nodes_pool, jn.2.node_type = "ALTER_MATERIAL" →
        incomingActiveInfo g (g.edges_pool.map Prod.fst) jn.1 ≠ []) →
      ∃ res, update_cum_lt_info g = some res ∧
        ∀ j node, alookup j g.nodes_pool = some node →
          node.node_type = "ALTER_MATERIAL" →
          ∃ c L, alookup j res = some (c, L) ∧
            (node.alter_time_mode = "EXP" →
              c = (((incomingActiveInfo g (g.edges_pool.map Prod.fst) j).map fun pr =>
                (pr.1, pr.2, resCum res pr.1 + ((node.lt : ℚ) : WithBot ℚ))).map
                  fun x => WithBot.map (fun t => t * x.2.1) x.2.2).foldl (· + ·)
                (0 : WithBot ℚ)) ∧
            (node.alter_time_mode = "MAX" →
              (∀ pr ∈ incomingActiveInfo g (g.edges_pool.map Prod.fst) j,
                resCum res pr.1 + ((node.lt : ℚ) : WithBot ℚ) ≤ c) ∧
              ∃ pr ∈ incomingActiveInfo g (g.edges_pool.map Prod.fst) j,
                c = resCum res pr.1 + ((node.lt : ℚ) : WithBot ℚ)) ∧
            (node.alter_time_mode = "MIN" →
              (∀ pr ∈ incomingActiveInfo g (g.edges_pool.map Prod.fst) j,
                c ≤ resCum res pr.1 + ((node.lt : ℚ) : WithBot ℚ)) ∧
              ∃ pr ∈ incomingActiveInfo g (g.edges_pool.map Prod.fst) j,
                c = resCum res pr.1 + ((node.lt : ℚ) : WithBot ℚ))) ∧
    (update_cum_lt_info (altG "EXP")).bind (alookup "ALT")
      = some (((15 : ℚ) : WithBot ℚ), []) ∧
    (update_cum_lt_info (altG "MAX")).bind (alookup "ALT")
      = some (((20 : ℚ) : WithBot ℚ), ["P2"]) ∧
    (update_cum_lt_info (altG "MIN")).bind (alookup "ALT")
      = some (((10 : ℚ) : WithBot ℚ), ["P1"]) := by
  refine ⟨?_, ?_, ?_, ?_⟩
  · intro g h1 h2 h3 h4 h5 h6
    obtain ⟨res, hrun, hper⟩ := update_cum_lt_master g h1 h2 h3 h4 h5 h6
    refine ⟨res, hrun, ?_⟩
    intro j node hj htype
    obtain ⟨c, L, hres, _hna, _hro, halt⟩ := hper j node hj
    obtain ⟨hE, hM, hN⟩ := halt htype
    exact ⟨c, L, hres, hE, hM, hN⟩
  · simp +decide [update_cum_lt_info, find_topo_sort, dfsTopo, succsNilOutside,
      nodesOf, find_succs_of_node, find_preds_of_node, rootsOf, cumStep, altCum,
      incomingActiveInfo, alookup, alookup2, aupdate, aremove, altG, mkMNode,
      List.mapM.loop]
    simp only [show (10 : WithBot ℚ) = ((10 : ℚ) : WithBot ℚ) from rfl,
      show (20 : WithBot ℚ) = ((20 : ℚ) : WithBot ℚ) from rfl,
      WithBot.map_coe, ← WithBot.coe_add, WithBot.coe_eq_coe]
    norm_num
  · simp +decide [update_cum_lt_info, find_topo_sort, dfsTopo, succsNilOutside,
      nodesOf, find_succs_of_node, find_preds_of_node, rootsOf, cumStep, altCum,
      incomingActiveInfo, alookup, alookup2, aupdate, aremove, altG, mkMNode,
      List.mapM.loop]
  · simp +decide [update_cum_lt_info, find_topo_sort, dfsTopo, succsNilOutside,
      nodesOf, find_succs_of_node, find_preds_of_node, rootsOf, cumStep, altCum,
      incomingActiveInfo, alookup, alookup2, aupdate, aremove, altG, mkMNode,
      List.mapM.loop]

/-- C5 witness: the mode characterization applied to the concrete
two-alternative graph in MAX mode. -/
theorem alter_cum_lt_modes_witness :
    ∃ res, update_cum_lt_info (altG "MAX") = some res ∧
      ∀ j node, alookup j (altG "MAX").nodes_pool = some node →
        node.node_type = "ALTER_MATERIAL" →
        ∃ c L, alookup j res = some (c, L) ∧
          (node.alter_time_mode = "EXP" →
            c = (((incomingActiveInfo (altG "MAX")
              ((altG "MAX").edges_pool.map Prod.fst) j).map fun pr =>
              (pr.1, pr.2, resCum res pr.1 + ((node.lt : ℚ) : WithBot ℚ))).map
                fun x => WithBot.map (fun t => t * x.2.1) x.2.2).foldl (· + ·)
              (0 : WithBot ℚ)) ∧
          (node.alter_time_mode = "MAX" →
            (∀ pr ∈ incomingActiveInfo (altG "MAX")
                ((altG "MAX").edges_pool.map Prod.fst) j,
              resCum res pr.1 + ((node.lt : ℚ) : WithBot ℚ) ≤ c) ∧
            ∃ pr ∈ incomingActiveInfo (altG "MAX")
                ((altG "MAX").edges_pool.map Prod.fst) j,
              c = resCum res pr.1 + ((node.lt : ℚ) : WithBot ℚ)) ∧
          (node.alter_time_mode = "MIN" →
            (∀ pr ∈ incomingActiveInfo (altG "MAX")
                ((altG "MAX").edges_pool.map Prod.fst) j,
              c ≤ resCum res pr.1 + ((node.lt : ℚ) : WithBot ℚ)) ∧
            ∃ pr ∈ incomingActiveInfo (altG "MAX")
                ((altG "MAX").edges_pool.map Prod.fst) j,
              c = resCum res pr.1 + ((node.lt : ℚ) : WithBot ℚ)) := by
  have hacy : AcyclicEdges ((altG "MAX").edges_pool.map Prod.fst) :=
    acyclic_of_rank _ (fun v => if v = "ALT" then 1 else 0) (by decide)
  have h6 : ∀ jn ∈ (altG "MAX").nodes_pool, jn.2.node_type = "ALTER_MATERIAL" →
      incomingActiveInfo (altG "MAX") ((altG "MAX").edges_pool.map Prod.fst) jn.1
        ≠ [] := by
    have hne : incomingActiveInfo (altG "MAX")
        ((altG "MAX").edges_pool.map Prod.fst) "ALT" ≠ [] := by
      intro hnil
      have hmem : ("P1", (1 : ℚ)/2) ∈ incomingActiveInfo (altG "MAX")
          ((altG "MAX").edges_pool.map Prod.fst) "ALT" := by
        rw [incomingActiveInfo]
        refine List.mem_filterMap.mpr ⟨"P1", by decide, ?_⟩
        show (if 0 < ((1 : ℚ)/2) then some ("P1", (1 : ℚ)/2) else none)
          = some ("P1", (1 : ℚ)/2)
        rw [if_pos (by norm_num : (0 : ℚ) < 1/2)]
      rw [hnil] at hmem
      exact List.not_mem_nil _ hmem
    intro jn hjn ht
    simp only [altG, List.mem_cons, List.not_mem_nil, or_false] at hjn
    rcases hjn with rfl | rfl | rfl
    · exact absurd ht (by decide)
    · exact absurd ht (by decide)
    · exact hne
  exact alter_cum_lt_modes.1 (altG "MAX") (by decide) hacy (by decide)
    (by decide) (by decide) h6

/-- C6 (amended): on a well-formed acyclic material graph,
`update_cum_lt_info` gives every non-alternate node with predecessors the
maximum of `cum_lt[p] + lt[n]` over its predecessors, with `longest_pred`
keeping every predecessor attaining the maximum, and gives every root of the
edge pool `cum_lt = lt` (through the virtual `start` predecessor); but a node
with no incident edges at all is not handled that way: with an empty edge
pool its fold over zero predecessors leaves the `-inf` initialization (and
with a nonempty edge pool the node is missing from the topological order and
the final per-node lookup fails), so such a node does not get
`cum_lt = lt`. -/
theorem cum_lt_nonalter_amended :
    (∀ g : MaterialGraphState,
      0 < (g.edges_pool.map Prod.fst).length →
      AcyclicEdges (g.edges_pool.map Prod.fst) →
      (∀ x ∈ nodesOf (g.edges_pool.map Prod.fst), x ∈ g.nodes_pool.map Prod.fst) →
      (∀ j ∈ g.nodes_pool.map Prod.fst, j ∈ nodesOf (g.edges_pool.map Prod.fst)) →
      "start" ∉ g.nodes_pool.map Prod.fst →
      (∀ jn ∈ g.nodes_pool, jn.2.node_type = "ALTER_MATERIAL" →
        incomingActiveInfo g (g.edges_pool.map Prod.fst) jn.1 ≠ []) →
      ∃ res, update_cum_lt_info g = some res ∧
        ∀ j node, alookup j g.nodes_pool = some node →
          node.node_type ≠ "ALTER_MATERIAL" →
          ∃ c L, alookup j res = some (c, L) ∧
            (j ∉ rootsOf (g.edges_pool.map Prod.fst) →
              (∀ p ∈ find_preds_of_node (g.edges_pool.map Prod.fst) j,
                resCum res p + ((node.lt : ℚ) : WithBot ℚ) ≤ c) ∧
              (∃ p ∈ find_preds_of_node (g.edges_pool.map Prod.fst) j,
                c = resCum res p + ((node.lt : ℚ) : WithBot ℚ)) ∧
              (∀ x, x ∈ L ↔ x ∈ find_preds_of_node (g.edges_pool.map Prod.fst) j ∧
                resCum res x + ((node.lt : ℚ) : WithBot ℚ) = c)) ∧
            (j ∈ rootsOf (g.edges_pool.map Prod.fst) →
              c = ((node.lt : ℚ) : WithBot ℚ) ∧ L = ["start"])) ∧
    update_cum_lt_info chainG =
      some [("R", (((5 : ℚ) : WithBot ℚ), ["start"])),
            ("N", (((8 : ℚ) : WithBot ℚ), ["R"]))] := by
  constructor
  · intro g h1 h2 h3 h4 h5 h6
    obtain ⟨res, hrun, hper⟩ := update_cum_lt_master g h1 h2 h3 h4 h5 h6
    refine ⟨res, hrun, ?_⟩
    intro j node hj htype
    obtain ⟨c, L, hres, hna, hro, _halt⟩ := hper j node hj
    exact ⟨c, L, hres, hna htype, hro htype⟩
  · simp +decide [update_cum_lt_info, find_topo_sort, dfsTopo, succsNilOutside,
      nodesOf, find_succs_of_node, find_preds_of_node, rootsOf, cumStep, altCum,
      incomingActiveInfo, alookup, alookup2, aupdate, aremove, chainG, mkMNode,
      mkMEdge, List.mapM.loop]
    norm_num [← WithBot.coe_add, WithBot.coe_eq_coe]

/-- C6 counterexample: a node with no incident edges at all (`isoG` holds the
single node `R` with `lt = 5` and an empty edge pool) ends with
`cum_lt = -inf`, not `cum_lt = lt`: with no edges `R` is not a root of the
edge pool, so it never receives the virtual `start` predecessor, and its fold
over an empty predecessor list returns the `-inf` initialization. -/
theorem cum_lt_isolated_counterexample :
    find_preds_of_node (isoG.edges_pool.map Prod.fst) "R" = [] ∧
    (alookup "R" isoG.nodes_pool).map MaterialNodeState.lt = some 5 ∧
    update_cum_lt_info isoG = some [("R", ((⊥ : WithBot ℚ), []))] ∧
    (⊥ : WithBot ℚ) ≠ ((5 : ℚ) : WithBot ℚ) :=
  ⟨by decide, by decide, by decide, WithBot.bot_ne_coe⟩

/-- C6 witness: the amended statement applied to the concrete chain
`R (lt 5) → N (lt 3)`. -/
theorem cum_lt_nonalter_amended_witness :
    ∃ res, update_cum_lt_info chainG = some res ∧
      ∀ j node, alookup j chainG.nodes_pool = some node →
        node.node_type ≠ "ALTER_MATERIAL" →
        ∃ c L, alookup j res = some (c, L) ∧
          (j ∉ rootsOf (chainG.edges_pool.map Prod.fst) →
            (∀ p ∈ find_preds_of_node (chainG.edges_pool.map Prod.fst) j,
              resCum res p + ((node.lt : ℚ) : WithBot ℚ) ≤ c) ∧
            (∃ p ∈ find_preds_of_node (chainG.edges_pool.map Prod.fst) j,
              c = resCum res p + ((node.lt : ℚ) : WithBot ℚ)) ∧
            (∀ x, x ∈ L ↔ x ∈ find_preds_of_node (chainG.edges_pool.map Prod.fst) j ∧
              resCum res x + ((node.lt : ℚ) : WithBot ℚ) = c)) ∧
          (j ∈ rootsOf (chainG.edges_pool.map Prod.fst) →
            c = ((node.lt : ℚ) : WithBot ℚ) ∧ L = ["start"]) := by
  have hacy : AcyclicEdges (chainG.edges_pool.map Prod.fst) :=
    acyclic_of_rank _ (fun v => if v = "R" then 0 else 1) (by decide)
  exact cum_lt_nonalter_amended.1 chainG (by decide) hacy (by decide) (by decide)
    (by decide) (by decide)

theorem alookup2_setIncomingRatio (k q : String × String) (r : ℚ) :
    ∀ m : List ((String × String) × IncomingInfo),
    alookup2 q (setIncomingRatio k r m) =
      if q = k then (alookup2 q m).map fun i => { i with decision_ratio := r }
      else alookup2 q m := by
  intro m
  induction m with
  | nil =>
      by_cases hqk : q = k
      · simp [setIncomingRatio, alookup2, if_pos hqk]
      · simp [setIncomingRatio, alookup2, if_neg hqk]
  | cons p t ih =>
      obtain ⟨kk, ii⟩ := p
      by_cases hkk : kk = k
      · subst hkk
        simp only [setIncomingRatio, List.map_cons, if_pos rfl]
        by_cases hq : kk = q
        · subst hq
          simp only [alookup2, if_pos rfl, if_pos rfl, Option.map_some',
            ite_true]
        · simp only [alookup2, if_neg hq]
          rw [show setIncomingRatio kk r t = t.map
            (fun p => if p.1 = kk then (p.1, { p.2 with decision_ratio := r }) else p)
            from rfl] at ih
          exact ih
      · simp only [setIncomingRatio, List.map_cons, if_neg hkk]
        by_cases hq : kk = q
        · subst hq
          have hqk : ¬ kk = k := hkk
          simp only [alookup2, if_pos rfl, if_neg hqk, ite_true]
        · simp only [alookup2, if_neg hq]
          rw [show setIncomingRatio k r t = t.map
            (fun p => if p.1 = k then (p.1, { p.2 with decision_ratio := r }) else p)
            from rfl] at ih
          exact ih

theorem alookup2_fold_setIncomingRatio (r : ℚ) :
    ∀ (ks : List (String × String)) (m : List ((String × String) × IncomingInfo))
      (q : String × String),
    alookup2 q (ks.foldl (fun acc kk => setIncomingRatio kk r acc) m) =
      if q ∈ ks then (alookup2 q m).map fun i => { i with decision_ratio := r }
      else alookup2 q m := by
  intro ks
  induction ks with
  | nil =>
      intro m q
      simp
  | cons k0 kt ih =>
      intro m q
      rw [List.foldl_cons, ih, alookup2_setIncomingRatio]
      by_cases hqt : q ∈ kt
      · rw [if_pos hqt, if_pos (List.mem_cons_of_mem _ hqt)]
        by_cases hq0 : q = k0
        · rw [if_pos hq0, Option.map_map]
          cases alookup2 q m with
          | none => rfl
          | some i => rfl
        · rw [if_neg hq0]
      · rw [if_neg hqt]
        by_cases hq0 : q = k0
        · rw [if_pos hq0, if_pos (List.mem_cons.mpr (Or.inl hq0))]
        · rw [if_neg hq0,
            if_neg fun hm => (List.mem_cons.mp hm).elim hq0 hqt]

/-- C8 counterexample: the default ratio written on a three-alternative node
is exactly `1/3`, not `0.33`: there is no rounding anywhere in
`update_decision_ratio`. -/
theorem update_decision_ratio_no_rounding_counterexample :
    (update_decision_ratio alterEx none).incoming_edges_info.map
      (fun q => (q.1, q.2.decision_ratio)) =
      [(("p1", "alt"), (1 : ℚ)/3), (("p2", "alt"), (1 : ℚ)/3),
       (("p3", "alt"), (1 : ℚ)/3)] ∧
    ((1 : ℚ)/3 ≠ 33/100) := by
  constructor
  · simp +decide [update_decision_ratio, alterEx, setIncomingRatio,
      alterMaterialNodeInit]
  · norm_num

/-- C8 (amended): with no explicit ratios, `update_decision_ratio` writes on
every incoming edge `(p, n)` with `p` a predecessor the exact ratio
`1 / in_degree` — the `round(..., 2)` of the spec does not exist in the code,
so for in-degree 3 each edge gets exactly `1/3`, not `0.33`. -/
theorem update_decision_ratio_default_amended :
    (∀ (n : MaterialNodeState) (p : String), p ∈ n.pred_nodes →
      alookup2 (p, n.node_id) (update_decision_ratio n none).incoming_edges_info =
        (alookup2 (p, n.node_id) n.incoming_edges_info).map
          fun i => { i with decision_ratio := 1 / (n.pred_nodes.length : ℚ) }) ∧
    (update_decision_ratio alterEx none).incoming_edges_info.map
      (fun q => (q.1, q.2.decision_ratio)) =
      [(("p1", "alt"), (1 : ℚ)/3), (("p2", "alt"), (1 : ℚ)/3),
       (("p3", "alt"), (1 : ℚ)/3)] := by
  constructor
  · intro n p hp
    have hre : (update_decision_ratio n none).incoming_edges_info
        = (n.pred_nodes.map fun p0 => (p0, n.node_id)).foldl
          (fun acc kk => setIncomingRatio kk (1 / (n.pred_nodes.length : ℚ)) acc)
          n.incoming_edges_info := by
      show (n.pred_nodes.map fun p0 =>
          ((p0, n.node_id), 1 / (n.pred_nodes.length : ℚ))).foldl
          (fun m kr => setIncomingRatio kr.1 kr.2 m) n.incoming_edges_info = _
      rw [List.foldl_map, List.foldl_map]
    rw [hre, alookup2_fold_setIncomingRatio,
      if_pos (List.mem_map.mpr ⟨p, hp, rfl⟩)]
  · simp +decide [update_decision_ratio, alterEx, setIncomingRatio,
      alterMaterialNodeInit]

/-- C8 witness: the exact default ratio on the concrete three-alternative
node. -/
theorem update_decision_ratio_default_amended_witness :
    "p1" ∈ alterEx.pred_nodes ∧
    alookup2 ("p1", "alt")
        (update_decision_ratio alterEx none).incoming_edges_info =
      (alookup2 ("p1", "alt") alterEx.incoming_edges_info).map
        fun i => { i with decision_ratio := 1 / (alterEx.pred_nodes.length : ℚ) } :=
  ⟨by decide, update_decision_ratio_default_amended.1 alterEx "p1" (by decide)⟩
